import Mathlib

/-!
# The `strings` processor of telegraf (`plugins/processors/strings/strings.go`)

A shallow embedding of the processor and of the parts of the Go standard
library it calls, followed by theorems about the embedding.

* A Go `string` is a sequence of bytes (`GoString`); it need not be valid UTF-8.
* A runtime failure of the Go program (a slice bound out of range, a call of a
  nil function value) is the result `none`.
* Go does not fix the order in which `range` visits a map.  Every `range` over
  a map takes the order as a parameter (`RangeOrder`): a function from the
  entries of the map to the sequence in which they are visited.
-/

set_option autoImplicit false

namespace StringsProcessor

/-! ## Go strings -/

/-- One byte of a Go string. -/
abbrev Byte := Fin 256

/-- A Go `string`: an immutable sequence of bytes. -/
abbrev GoString := List Byte

/-- `utf8.RuneError`, the code point U+FFFD. -/
def RuneError : Nat := 0xFFFD

/-- The UTF-8 encoding of a code point (`utf8.AppendRune` for a valid rune);
used to write string literals of the Go program as byte sequences. -/
def encodeRune (r : Nat) : GoString :=
  if r < 0x80 then [Fin.ofNat r]
  else if r < 0x800 then [Fin.ofNat (0xC0 + r / 64), Fin.ofNat (0x80 + r % 64)]
  else if r < 0x10000 then
    [Fin.ofNat (0xE0 + r / 4096), Fin.ofNat (0x80 + r / 64 % 64), Fin.ofNat (0x80 + r % 64)]
  else
    [Fin.ofNat (0xF0 + r / 262144), Fin.ofNat (0x80 + r / 4096 % 64),
      Fin.ofNat (0x80 + r / 64 % 64), Fin.ofNat (0x80 + r % 64)]

/-- The bytes of a string literal (its UTF-8 encoding, as in Go source text). -/
def str (s : String) : GoString :=
  s.toList.flatMap (fun ch => encodeRune ch.toNat)

/-! ## `unicode/utf8` -/

/-- The table `first` of `unicode/utf8` for a lead byte of a multi-byte
sequence: the length of the sequence and the accepted range of its second
byte.  `none` for a byte that starts no multi-byte sequence (ASCII, a
continuation byte, 0xC0, 0xC1, 0xF5..0xFF). -/
def leadClass (b : Nat) : Option (Nat × Nat × Nat) :=
  if 0xC2 ≤ b ∧ b ≤ 0xDF then some (2, 0x80, 0xBF)
  else if b = 0xE0 then some (3, 0xA0, 0xBF)
  else if 0xE1 ≤ b ∧ b ≤ 0xEC then some (3, 0x80, 0xBF)
  else if b = 0xED then some (3, 0x80, 0x9F)
  else if 0xEE ≤ b ∧ b ≤ 0xEF then some (3, 0x80, 0xBF)
  else if b = 0xF0 then some (4, 0x90, 0xBF)
  else if 0xF1 ≤ b ∧ b ≤ 0xF3 then some (4, 0x80, 0xBF)
  else if b = 0xF4 then some (4, 0x80, 0x8F)
  else none

/-- A continuation byte, 0x80..0xBF (`locb`..`hicb`). -/
def isCont (b : Nat) : Bool := decide (0x80 ≤ b ∧ b ≤ 0xBF)

/-- The part of `utf8.DecodeRuneInString` for a lead byte `s0` of a sequence
of `sz` bytes whose second byte must lie in `lo..hi`.  The tests follow the Go
function: the length (`n < sz`), the second byte against the accepted range,
then the third and the fourth byte against the range of continuation bytes. -/
def decodeMulti (s0 : Nat) (rest : GoString) (sz lo hi : Nat) : Nat × Nat :=
  let s1 := (rest.getD 0 0).val
  let s2 := (rest.getD 1 0).val
  let s3 := (rest.getD 2 0).val
  if rest.length + 1 < sz then (RuneError, 1)
  else if s1 < lo ∨ hi < s1 then (RuneError, 1)
  else if sz ≤ 2 then (s0 % 32 * 64 + s1 % 64, 2)
  else if isCont s2 = false then (RuneError, 1)
  else if sz ≤ 3 then (s0 % 16 * 4096 + s1 % 64 * 64 + s2 % 64, 3)
  else if isCont s3 = false then (RuneError, 1)
  else (s0 % 8 * 262144 + s1 % 64 * 4096 + s2 % 64 * 64 + s3 % 64, 4)

/-- `utf8.DecodeRuneInString`: the first rune of `s` and its width in bytes.
The empty string gives `(RuneError, 0)`, an invalid encoding `(RuneError, 1)`. -/
def DecodeRuneInString : GoString → Nat × Nat
  | [] => (RuneError, 0)
  | s0 :: rest =>
    if s0.val < 0x80 then (s0.val, 1)
    else
      match leadClass s0.val with
      | none => (RuneError, 1)
      | some (sz, lo, hi) => decodeMulti s0.val rest sz lo hi

/-- One step of `for _, r := range s`: a rune of a string together with the
bytes that encode it. -/
structure Seg where
  rune : Nat
  bytes : GoString
deriving DecidableEq, Repr

/-- An invalid byte: `range` yields `RuneError` of width 1 for it. -/
def Seg.invalid (g : Seg) : Bool :=
  decide (g.rune = RuneError ∧ g.bytes.length = 1)

/-- The runes of `s` in order, as `for _, r := range s` yields them, each with
its bytes.  `skip` counts the bytes of the current rune still to be passed
over, so that the recursion is on the list of bytes. -/
def runesAux : Nat → GoString → List Seg
  | _, [] => []
  | 0, b :: rest =>
    let d := DecodeRuneInString (b :: rest)
    ⟨d.1, (b :: rest).take d.2⟩ :: runesAux (d.2 - 1) rest
  | k + 1, _ :: rest => runesAux k rest

/-- The runes of `s`, as `for _, r := range s` yields them. -/
def runes (s : GoString) : List Seg := runesAux 0 s

/-- The bytes of a sequence of runes. -/
def joinSegs (l : List Seg) : GoString := l.flatMap Seg.bytes

/-- `utf8.ValidString` (and `utf8.Valid` on the same bytes): no byte of `s` is
an invalid encoding. -/
def Valid (s : GoString) : Bool := (runes s).all (fun g => !g.invalid)

/-! ## `unicode` -/

/-- `unicode.IsSpace`: the Latin-1 spaces and, past Latin-1, the code points
of the `White_Space` property. -/
def IsSpace (r : Nat) : Bool :=
  if r ≤ 0xFF then
    decide (r = 0x09 ∨ r = 0x0A ∨ r = 0x0B ∨ r = 0x0C ∨ r = 0x0D ∨ r = 0x20 ∨ r = 0x85 ∨ r = 0xA0)
  else
    decide (r = 0x1680 ∨ (0x2000 ≤ r ∧ r ≤ 0x200A) ∨ r = 0x2028 ∨ r = 0x2029 ∨ r = 0x202F
      ∨ r = 0x205F ∨ r = 0x3000)

/-! ## `strings` -/

/-- `strings.ContainsRune`: `r` is one of the runes `range cutset` yields. -/
def ContainsRune (cutset : GoString) (r : Nat) : Bool :=
  (runes cutset).any (fun g => decide (g.rune = r))

/-- `strings.TrimLeftFunc`: `s` without its leading runes that satisfy `f`. -/
def TrimLeftFunc (s : GoString) (f : Nat → Bool) : GoString :=
  joinSegs ((runes s).dropWhile (fun g => f g.rune))

/-- `strings.TrimRightFunc`: `s` without its trailing runes that satisfy `f`. -/
def TrimRightFunc (s : GoString) (f : Nat → Bool) : GoString :=
  joinSegs ((runes s).rdropWhile (fun g => f g.rune))

/-- `strings.TrimFunc`, which Go defines as
`TrimRightFunc(TrimLeftFunc(s, f), f)`. -/
def TrimFunc (s : GoString) (f : Nat → Bool) : GoString :=
  TrimRightFunc (TrimLeftFunc s f) f

/-- `strings.TrimLeft`: `s` without its leading runes contained in `cutset`. -/
def TrimLeft (s cutset : GoString) : GoString :=
  if s = [] ∨ cutset = [] then s
  else joinSegs ((runes s).dropWhile (fun g => ContainsRune cutset g.rune))

/-- `strings.TrimRight`: `s` without its trailing runes contained in `cutset`. -/
def TrimRight (s cutset : GoString) : GoString :=
  if s = [] ∨ cutset = [] then s
  else joinSegs ((runes s).rdropWhile (fun g => ContainsRune cutset g.rune))

/-- `strings.Trim`, which Go computes by trimming the right end and then the
left end. -/
def Trim (s cutset : GoString) : GoString :=
  if s = [] ∨ cutset = [] then s
  else TrimLeft (TrimRight s cutset) cutset

/-- `strings.HasPrefix`. -/
def HasPrefix (s pre : GoString) : Bool := pre.isPrefixOf s

/-- `strings.HasSuffix`. -/
def HasSuffix (s suf : GoString) : Bool := suf.isSuffixOf s

/-- `strings.TrimPrefix`: `s` without the leading `pre`, or `s` itself. -/
def TrimPrefix (s pre : GoString) : GoString :=
  if HasPrefix s pre then s.drop pre.length else s

/-- `strings.TrimSuffix`: `s` without the trailing `suf`, or `s` itself. -/
def TrimSuffix (s suf : GoString) : GoString :=
  if HasSuffix s suf then s.take (s.length - suf.length) else s

/-- The loop of `strings.Replace` for a non-empty `old`: the leftmost
occurrence of `old` is replaced and the search goes on after it.  `skip`
counts the bytes of a replaced occurrence still to be passed over. -/
def replaceAux (old new : GoString) : Nat → GoString → GoString
  | _, [] => []
  | 0, b :: rest =>
    if old.isPrefixOf (b :: rest) then new ++ replaceAux old new (old.length - 1) rest
    else b :: replaceAux old new 0 rest
  | k + 1, _ :: rest => replaceAux old new k rest

/-- `strings.ReplaceAll(s, old, new)`, that is `strings.Replace(s, old, new, -1)`:
all non-overlapping occurrences of `old` replaced by `new`; an empty `old`
matches before every rune and at the end of the string. -/
def ReplaceAll (s old new : GoString) : GoString :=
  if old = new then s
  else if old = [] then (runes s).flatMap (fun g => new ++ g.bytes) ++ new
  else replaceAux old new 0 s

/-- The pass of `strings.ToValidUTF8` over the runes of the string; `inv` says
that the previous byte was invalid (a run of invalid bytes is replaced once). -/
def toValidAux (replacement : GoString) : Bool → List Seg → GoString
  | _, [] => []
  | inv, g :: rest =>
    if g.invalid then
      (if inv then [] else replacement) ++ toValidAux replacement true rest
    else g.bytes ++ toValidAux replacement false rest

/-- `strings.ToValidUTF8`: each run of invalid bytes replaced by
`replacement`. -/
def ToValidUTF8 (s replacement : GoString) : GoString :=
  toValidAux replacement false (runes s)

/-! ## `encoding/base64`, the encoding `StdEncoding` -/

/-- The alphabet of `base64.StdEncoding`. -/
def encodeStd : GoString :=
  str "ABCDEFGHIJKLMNOPQRSTUVWXYZabcdefghijklmnopqrstuvwxyz0123456789+/"

/-- The padding character `=` of `base64.StdEncoding`. -/
def padChar : Byte := 61

/-- The table `decodeMap` of the encoding: the index of a byte in the
alphabet, and 0xFF for a byte that is not in it. -/
def decodeMap (b : Byte) : Nat :=
  let i := encodeStd.indexOf b
  if i < 64 then i else 0xFF

/-- The table `encode` of the encoding, read at a six-bit value. -/
def encodeChar (v : Nat) : Byte := encodeStd.getD (v % 64) 0

/-- A line feed or a carriage return, which the decoder ignores. -/
def isNewline (b : Byte) : Bool := decide (b = 10 ∨ b = 13)

/-- The loops of `decodeQuantum` that skip over newlines. -/
def skipNewlines (s : GoString) : GoString := s.dropWhile isNewline

/-- The end of `decodeQuantum`: four six-bit values become three bytes, of
which `dlen - 1` are written.  The values are below 64, so the shifts and
bitwise ors of the Go code are products and sums. -/
def quantumBytes (d0 d1 d2 d3 dlen : Nat) : GoString :=
  let val := d0 * 262144 + d1 * 4096 + d2 * 64 + d3
  ([Fin.ofNat (val / 65536), Fin.ofNat (val / 256), Fin.ofNat val] : GoString).take (dlen - 1)

/-- The decoding loop of `Encoding.Decode` (`decodeQuantum` called until the
input is used up) for `StdEncoding`: padded, not strict.  `dbuf` holds the
six-bit values read so far in the current quantum.  `none` stands for a
`CorruptInputError`. -/
def decodeAux : List Nat → GoString → Option GoString
  | dbuf, [] => if dbuf = [] then some [] else none
  | dbuf, b :: rest =>
    if decodeMap b ≠ 0xFF then
      match dbuf with
      | [d0, d1, d2] =>
        (decodeAux [] rest).map (fun tl => quantumBytes d0 d1 d2 (decodeMap b) 4 ++ tl)
      | _ => decodeAux (dbuf ++ [decodeMap b]) rest
    else if isNewline b then decodeAux dbuf rest
    else if b ≠ padChar then none
    else
      match dbuf with
      | [d0, d1] =>
        match skipNewlines rest with
        | [] => none
        | p :: rest2 =>
          if p ≠ padChar then none
          else if skipNewlines rest2 = [] then some (quantumBytes d0 d1 0 0 2)
          else none
      | [d0, d1, d2] =>
        if skipNewlines rest = [] then some (quantumBytes d0 d1 d2 0 3) else none
      | _ => none

/-- `base64.StdEncoding.DecodeString`: the decoded bytes, or `none` when Go
returns an error. -/
def DecodeString (s : GoString) : Option GoString := decodeAux [] s

/-- `base64.StdEncoding.EncodeToString`. -/
def EncodeToString : GoString → GoString
  | a :: b :: c :: rest =>
    let val := a.val * 65536 + b.val * 256 + c.val
    encodeChar (val / 262144) :: encodeChar (val / 4096) :: encodeChar (val / 64)
      :: encodeChar val :: EncodeToString rest
  | [a, b] =>
    let val := a.val * 65536 + b.val * 256
    [encodeChar (val / 262144), encodeChar (val / 4096), encodeChar (val / 64), padChar]
  | [a] =>
    let val := a.val * 65536
    [encodeChar (val / 262144), encodeChar (val / 4096), padChar, padChar]
  | [] => []

/-! ## Case mapping -/

/-- The case mappings the processor takes from the Go libraries:
`strings.ToLower`, `strings.ToUpper` and
`cases.Title(language.Und, cases.NoLower).String`.  They depend on the
Unicode tables and are parameters of the embedding; each is a total function
on strings. -/
structure CaseLib where
  ToLower : GoString → GoString
  ToUpper : GoString → GoString
  Title : GoString → GoString

/-! ## The metric -/

/-- Modelled from the spec: the value of a field of a metric, "a tagged union
including at least a string variant" (the type `telegraf.Metric` and its
implementation are not part of the source file).  A float is kept as its bit
pattern; the processor never inspects it. -/
inductive FieldValue where
  | str (s : GoString)
  | int (i : Int)
  | uint (u : Nat)
  | float (bits : Nat)
  | bool (b : Bool)
deriving DecidableEq, Repr

/-- Modelled from the spec: a metric has a name, a mapping of tag keys to tag
values and a mapping of field keys to field values, the keys of each mapping
unique (`Metric.WF`).  The mappings are kept as association lists. -/
structure Metric where
  name : GoString
  tags : List (GoString × GoString)
  fields : List (GoString × FieldValue)
deriving DecidableEq, Repr

/-- The keys of an association list. -/
def keys {β : Type} (l : List (GoString × β)) : List GoString := l.map Prod.fst

/-- The value under key `k` of an association list. -/
def kvGet {β : Type} (k : GoString) : List (GoString × β) → Option β
  | [] => none
  | (k1, v1) :: rest => if k1 = k then some v1 else kvGet k rest

/-- The association list with `k` bound to `v`: the value of an existing entry
is replaced, a new entry is added at the end. -/
def kvSet {β : Type} (k : GoString) (v : β) : List (GoString × β) → List (GoString × β)
  | [] => [(k, v)]
  | (k1, v1) :: rest => if k1 = k then (k, v) :: rest else (k1, v1) :: kvSet k v rest

/-- The association list without the entry of key `k`. -/
def kvErase {β : Type} (k : GoString) : List (GoString × β) → List (GoString × β)
  | [] => []
  | (k1, v1) :: rest => if k1 = k then rest else (k1, v1) :: kvErase k rest

/-- Modelled from the spec: the keys of the tags are unique and so are the
keys of the fields. -/
def Metric.WF (m : Metric) : Prop := (keys m.tags).Nodup ∧ (keys m.fields).Nodup

instance (m : Metric) : Decidable m.WF := by
  unfold Metric.WF
  infer_instance

/-- Modelled from the spec: `Name() -> string`. -/
def Metric.Name (m : Metric) : GoString := m.name

/-- Modelled from the spec: `SetName(string)`. -/
def Metric.SetName (m : Metric) (name : GoString) : Metric := { m with name := name }

/-- Modelled from the spec: `Tags() -> mapping<string,string>`, a copy of the
tags that later changes of the metric do not touch. -/
def Metric.Tags (m : Metric) : List (GoString × GoString) := m.tags

/-- Modelled from the spec: `GetTag(key) -> (string, found: bool)`. -/
def Metric.GetTag (m : Metric) (key : GoString) : Option GoString := kvGet key m.tags

/-- Modelled from the spec: `AddTag(key, value)`; the value of an existing tag
is overwritten. -/
def Metric.AddTag (m : Metric) (key value : GoString) : Metric :=
  { m with tags := kvSet key value m.tags }

/-- Modelled from the spec: `RemoveTag(key)`. -/
def Metric.RemoveTag (m : Metric) (key : GoString) : Metric :=
  { m with tags := kvErase key m.tags }

/-- Modelled from the spec: `Fields() -> mapping<string, value>`, a copy of the
fields that later changes of the metric do not touch. -/
def Metric.Fields (m : Metric) : List (GoString × FieldValue) := m.fields

/-- Modelled from the spec: `GetField(key) -> (value, found: bool)`. -/
def Metric.GetField (m : Metric) (key : GoString) : Option FieldValue := kvGet key m.fields

/-- Modelled from the spec: `AddField(key, value)`; the value of an existing
field is overwritten. -/
def Metric.AddField (m : Metric) (key : GoString) (value : FieldValue) : Metric :=
  { m with fields := kvSet key value m.fields }

/-- Modelled from the spec: `RemoveField(key)`. -/
def Metric.RemoveField (m : Metric) (key : GoString) : Metric :=
  { m with fields := kvErase key m.fields }

/-- The order in which the four `range` loops of one `convert` call visit the
entries of the map they iterate (Go leaves it unspecified): each function
takes the entries of the map and returns them in the order of the visit. -/
structure RangeOrder where
  field : List (GoString × FieldValue) → List (GoString × FieldValue)
  fieldKey : List (GoString × FieldValue) → List (GoString × FieldValue)
  tag : List (GoString × GoString) → List (GoString × GoString)
  tagKey : List (GoString × GoString) → List (GoString × GoString)

/-- A `range` visits every entry of the map once. -/
def RangeOrder.Valid (o : RangeOrder) : Prop :=
  (∀ l, (o.field l).Perm l) ∧ (∀ l, (o.fieldKey l).Perm l) ∧
  (∀ l, (o.tag l).Perm l) ∧ (∀ l, (o.tagKey l).Perm l)

/-- The order that visits the entries as they are stored. -/
def RangeOrder.stored : RangeOrder := ⟨id, id, id, id⟩

/-- The order that visits the entries last to first. -/
def RangeOrder.reversed : RangeOrder := ⟨List.reverse, List.reverse, List.reverse, List.reverse⟩

/-! ## The processor -/

/-- The type `convertFunc func(s string) string`; `none` is a runtime failure
of the call. -/
abbrev convertFunc := GoString → Option GoString

/-- The struct `converter`: one configured rule.  `fn` is `none` (Go: `nil`)
until `initOnce` binds it. -/
structure converter where
  Field : GoString := []
  FieldKey : GoString := []
  Tag : GoString := []
  TagKey : GoString := []
  Measurement : GoString := []
  Dest : GoString := []
  Cutset : GoString := []
  Suffix : GoString := []
  Prefix : GoString := []
  Old : GoString := []
  New : GoString := []
  Width : Int := 0
  Replacement : GoString := []
  fn : Option convertFunc := none

/-- The struct `Strings`: the twelve configured groups, the compiled rule
list and the flag that says it was compiled. -/
structure Strings where
  Lowercase : List converter := []
  Uppercase : List converter := []
  Titlecase : List converter := []
  Trim : List converter := []
  TrimLeft : List converter := []
  TrimRight : List converter := []
  TrimPrefix : List converter := []
  TrimSuffix : List converter := []
  Replace : List converter := []
  Left : List converter := []
  Base64Decode : List converter := []
  ValidUTF8 : List converter := []
  converters : List converter := []
  init : Bool := false

/-- The selector `"*"`. -/
def star : GoString := str "*"

/-- The call `c.fn(s)`; calling a nil function value fails. -/
def converter.call (c : converter) (s : GoString) : Option GoString :=
  match c.fn with
  | none => none
  | some f => f s

/-- The loop `for dest, value := range tags` of `convertTag` over the entries
in the order of the visit. -/
def converter.convertTagLoop (c : converter) :
    List (GoString × GoString) → Metric → Option Metric
  | [], metric => some metric
  | (dest, value) :: rest, metric =>
    let dest := if c.Tag ≠ star ∧ c.Dest ≠ [] then c.Dest else dest
    match c.call value with
    | none => none
    | some v => c.convertTagLoop rest (metric.AddTag dest v)

/-- The method `convertTag`. -/
def converter.convertTag (c : converter)
    (ord : List (GoString × GoString) → List (GoString × GoString))
    (metric : Metric) : Option Metric :=
  if c.Tag = star then c.convertTagLoop (ord metric.Tags) metric
  else
    match metric.GetTag c.Tag with
    | none => some metric
    | some tv => c.convertTagLoop [(c.Tag, tv)] metric

/-- The loop `for key, value := range tags` of `convertTagKey`. -/
def converter.convertTagKeyLoop (c : converter) :
    List (GoString × GoString) → Metric → Option Metric
  | [], metric => some metric
  | (key, value) :: rest, metric =>
    match c.call key with
    | none => none
    | some k =>
      if k ≠ [] then c.convertTagKeyLoop rest ((metric.RemoveTag key).AddTag k value)
      else c.convertTagKeyLoop rest metric

/-- The method `convertTagKey`. -/
def converter.convertTagKey (c : converter)
    (ord : List (GoString × GoString) → List (GoString × GoString))
    (metric : Metric) : Option Metric :=
  if c.TagKey = star then c.convertTagKeyLoop (ord metric.Tags) metric
  else
    match metric.GetTag c.TagKey with
    | none => some metric
    | some tv => c.convertTagKeyLoop [(c.TagKey, tv)] metric

/-- The loop `for dest, value := range fields` of `convertField`; only a
string value is converted. -/
def converter.convertFieldLoop (c : converter) :
    List (GoString × FieldValue) → Metric → Option Metric
  | [], metric => some metric
  | (dest, value) :: rest, metric =>
    let dest := if c.Field ≠ star ∧ c.Dest ≠ [] then c.Dest else dest
    match value with
    | FieldValue.str fv =>
      match c.call fv with
      | none => none
      | some v => c.convertFieldLoop rest (metric.AddField dest (FieldValue.str v))
    | _ => c.convertFieldLoop rest metric

/-- The method `convertField`. -/
def converter.convertField (c : converter)
    (ord : List (GoString × FieldValue) → List (GoString × FieldValue))
    (metric : Metric) : Option Metric :=
  if c.Field = star then c.convertFieldLoop (ord metric.Fields) metric
  else
    match metric.GetField c.Field with
    | none => some metric
    | some fv => c.convertFieldLoop [(c.Field, fv)] metric

/-- The loop `for key, value := range fields` of `convertFieldKey`. -/
def converter.convertFieldKeyLoop (c : converter) :
    List (GoString × FieldValue) → Metric → Option Metric
  | [], metric => some metric
  | (key, value) :: rest, metric =>
    match c.call key with
    | none => none
    | some k =>
      if k ≠ [] then c.convertFieldKeyLoop rest ((metric.RemoveField key).AddField k value)
      else c.convertFieldKeyLoop rest metric

/-- The method `convertFieldKey`. -/
def converter.convertFieldKey (c : converter)
    (ord : List (GoString × FieldValue) → List (GoString × FieldValue))
    (metric : Metric) : Option Metric :=
  if c.FieldKey = star then c.convertFieldKeyLoop (ord metric.Fields) metric
  else
    match metric.GetField c.FieldKey with
    | none => some metric
    | some fv => c.convertFieldKeyLoop [(c.FieldKey, fv)] metric

/-- The method `convertMeasurement`. -/
def converter.convertMeasurement (c : converter) (metric : Metric) : Option Metric :=
  if metric.Name ≠ c.Measurement ∧ c.Measurement ≠ star then some metric
  else
    match c.call metric.Name with
    | none => none
    | some v => some (metric.SetName v)

/-- The method `convert`: the passes of the populated selectors, in the order
field, field key, tag, tag key, measurement. -/
def converter.convert (c : converter) (ord : RangeOrder) (metric : Metric) : Option Metric :=
  (if c.Field ≠ [] then c.convertField ord.field metric else some metric).bind fun m1 =>
  (if c.FieldKey ≠ [] then c.convertFieldKey ord.fieldKey m1 else some m1).bind fun m2 =>
  (if c.Tag ≠ [] then c.convertTag ord.tag m2 else some m2).bind fun m3 =>
  (if c.TagKey ≠ [] then c.convertTagKey ord.tagKey m3 else some m3).bind fun m4 =>
  if c.Measurement ≠ [] then c.convertMeasurement m4 else some m4

/-! ### The transforms bound by `initOnce` -/

/-- The transform of a `lowercase` rule: `strings.ToLower`. -/
def lowercaseFn (lib : CaseLib) : convertFunc := fun s => some (lib.ToLower s)

/-- The transform of an `uppercase` rule: `strings.ToUpper`. -/
def uppercaseFn (lib : CaseLib) : convertFunc := fun s => some (lib.ToUpper s)

/-- The transform of a `titlecase` rule. -/
def titlecaseFn (lib : CaseLib) : convertFunc := fun s => some (lib.Title s)

/-- The transform of a `trim` rule `c`. -/
def trimFn (c : converter) : convertFunc :=
  if c.Cutset ≠ [] then fun s => some (Trim s c.Cutset)
  else fun s => some (TrimFunc s IsSpace)

/-- The transform of a `trim_left` rule `c`. -/
def trimLeftFn (c : converter) : convertFunc :=
  if c.Cutset ≠ [] then fun s => some (TrimLeft s c.Cutset)
  else fun s => some (TrimLeftFunc s IsSpace)

/-- The transform of a `trim_right` rule `c`. -/
def trimRightFn (c : converter) : convertFunc :=
  if c.Cutset ≠ [] then fun s => some (TrimRight s c.Cutset)
  else fun s => some (TrimRightFunc s IsSpace)

/-- The transform of a `trim_prefix` rule `c`. -/
def trimPrefixFn (c : converter) : convertFunc := fun s => some (TrimPrefix s c.Prefix)

/-- The transform of a `trim_suffix` rule `c`. -/
def trimSuffixFn (c : converter) : convertFunc := fun s => some (TrimSuffix s c.Suffix)

/-- The transform of a `replace` rule `c`. -/
def replaceFn (c : converter) : convertFunc := fun s =>
  let newString := ReplaceAll s c.Old c.New
  if newString = [] then some s else some newString

/-- The slice expression `s[:hi]`, which fails unless `0 <= hi <= len(s)`. -/
def sliceTo (s : GoString) (hi : Int) : Option GoString :=
  if 0 ≤ hi ∧ hi ≤ (s.length : Int) then some (s.take hi.toNat) else none

/-- The transform of a `left` rule `c`. -/
def leftFn (c : converter) : convertFunc := fun s =>
  if (s.length : Int) < c.Width then some s else sliceTo s c.Width

/-- The transform of a `base64decode` rule. -/
def base64decodeFn : convertFunc := fun s =>
  match DecodeString s with
  | none => some s
  | some data => if Valid data then some data else some s

/-- The transform of a `valid_utf8` rule `c`. -/
def validUTF8Fn (c : converter) : convertFunc := fun s => some (ToValidUTF8 s c.Replacement)

/-- One loop of `initOnce`: every entry of a group, in order, gets its
transform and is appended to the rule list.  The closure of an entry reads the
parameters of that entry (the loop variable `c` is per iteration, Go 1.22). -/
def bindGroup (bindFn : converter → convertFunc) (group : List converter)
    (converters : List converter) : List converter :=
  group.foldl (fun acc c => acc ++ [{ c with fn := some (bindFn c) }]) converters

/-- The method `initOnce`. -/
def Strings.initOnce (lib : CaseLib) (s : Strings) : Strings :=
  if s.init then s
  else
    let converters : List converter := []
    let converters := bindGroup (fun _ => lowercaseFn lib) s.Lowercase converters
    let converters := bindGroup (fun _ => uppercaseFn lib) s.Uppercase converters
    let converters := bindGroup (fun _ => titlecaseFn lib) s.Titlecase converters
    let converters := bindGroup trimFn s.Trim converters
    let converters := bindGroup trimLeftFn s.TrimLeft converters
    let converters := bindGroup trimRightFn s.TrimRight converters
    let converters := bindGroup trimPrefixFn s.TrimPrefix converters
    let converters := bindGroup trimSuffixFn s.TrimSuffix converters
    let converters := bindGroup replaceFn s.Replace converters
    let converters := bindGroup leftFn s.Left converters
    let converters := bindGroup (fun _ => base64decodeFn) s.Base64Decode converters
    let converters := bindGroup validUTF8Fn s.ValidUTF8 converters
    { s with converters := converters, init := true }

/-- The inner loop of `Apply`: `for _, converter := range s.converters` on one
metric.  `sched j` is the order of the map visits of the `j`-th `convert`
call. -/
def applyConverters (sched : Nat → RangeOrder) :
    Nat → List converter → Metric → Option Metric
  | _, [], metric => some metric
  | j, c :: rest, metric =>
    match c.convert (sched j) metric with
    | none => none
    | some m1 => applyConverters sched (j + 1) rest m1

/-- The metric objects of a run, by address.  A `telegraf.Metric` value is a
reference to a metric object and the rules change the object in place, so two
entries of a batch that hold the same address share one object.  Every
address holds an object: a batch has no nil entry. -/
abbrev Heap := Nat → Metric

/-- The heap that holds the listed objects at the addresses 0, 1, ... (and an
empty metric elsewhere). -/
def heapOf (objs : List Metric) : Heap := fun p => objs.getD p ⟨[], [], []⟩

/-- The metrics a batch of addresses refers to. -/
def deref (heap : Heap) (batch : List Nat) : List Metric := batch.map heap

/-- The outer loop of `Apply`: `for _, metric := range in`, on the batch of
addresses `in`.  The rule list runs on the object at the address and leaves
its result there; `sched i` is the schedule of the map visits for the `i`-th
entry of the batch. -/
def applyBatch (sched : Nat → Nat → RangeOrder) (converters : List converter) :
    Nat → List Nat → Heap → Option Heap
  | _, [], heap => some heap
  | i, p :: rest, heap =>
    match applyConverters (sched i) 0 converters (heap p) with
    | none => none
    | some m1 => applyBatch sched converters (i + 1) rest (Function.update heap p m1)

/-- The method `Apply` on the batch of addresses `ins`: the processor after
the call, the heap after the call and the returned batch (`return in`, the
addresses as they came), or `none` when a transform fails at run time.  An
address may occur more than once in the batch; the rule list then runs on its
object once per occurrence. -/
def Strings.Apply (lib : CaseLib) (sched : Nat → Nat → RangeOrder) (s : Strings)
    (heap : Heap) (ins : List Nat) : Option (Strings × Heap × List Nat) :=
  let s1 := s.initOnce lib
  match applyBatch sched s1.converters 0 ins heap with
  | none => none
  | some heap1 => some (s1, heap1, ins)

/-! ## Notions used in the statements -/

/-- The configuration entry of a rule: the rule without its bound function. -/
def converter.unbound (c : converter) : converter := { c with fn := none }

/-- The selectors and the dest of a rule: field, field key, tag, tag key,
measurement, dest. -/
def converter.selectors (c : converter) :
    GoString × GoString × GoString × GoString × GoString × GoString :=
  (c.Field, c.FieldKey, c.Tag, c.TagKey, c.Measurement, c.Dest)

/-- The strip characters of a `trim`, `trim_left` or `trim_right` rule: the
runes of the cutset when one is configured, the Unicode white space otherwise. -/
def converter.stripRune (c : converter) (r : Nat) : Bool :=
  if c.Cutset ≠ [] then ContainsRune c.Cutset r else IsSpace r

/-- The rune `g` of a string is a strip character of the rule. -/
def converter.strips (c : converter) (g : Seg) : Bool := c.stripRune g.rune

/-- The transform of a rule is bound and returns a string for every input. -/
def converter.Total (c : converter) : Prop :=
  ∃ f : convertFunc, c.fn = some f ∧ ∀ x, ∃ y, f x = some y

/-- The rule's transform is the total function `f`. -/
def converter.Computes (c : converter) (f : GoString → GoString) : Prop :=
  c.fn = some (fun x => some (f x))

/-- The key under which a key pass with key transform `f` leaves the entry of
key `k`: `f k`, or `k` itself when `f k` is empty (the rename is skipped). -/
def renameKey (f : GoString → GoString) (k : GoString) : GoString :=
  if f k = [] then k else f k

/-- The effect of the loop of a key pass (`convertFieldKey`, `convertTagKey`)
on the association list, for a total key transform `f`: the entries are
visited in the given order; an entry whose new key is not empty is removed and
added again under the new key. -/
def renameLoop {β : Type} (f : GoString → GoString) :
    List (GoString × β) → List (GoString × β) → List (GoString × β)
  | [], live => live
  | (k, v) :: rest, live =>
    if f k ≠ [] then renameLoop f rest (kvSet (f k) v (kvErase k live))
    else renameLoop f rest live

/-- The value a field-value pass with the transform `f` writes for a field
value: the transformed string for a string, nothing for a value of another
type. -/
def fieldConv (f : GoString → GoString) : FieldValue → Option FieldValue
  | FieldValue.str s => some (FieldValue.str (f s))
  | _ => none

/-- The value of a field after a field-value pass with the transform `f` that
selects it: a string is transformed, a value of another type is kept. -/
def convValue (f : GoString → GoString) : FieldValue → FieldValue
  | FieldValue.str s => FieldValue.str (f s)
  | v => v

/-- The destination of a value pass (`convertField`, `convertTag`) for the
entry of key `k`: `dest` when the selector is exact and `dest` is set, `k`
otherwise. -/
def destKey (selector dest k : GoString) : GoString :=
  if selector ≠ star ∧ dest ≠ [] then dest else k

/-- The effect of the loop of a value pass (`convertField`, `convertTag`) on
the association list, for a total transform: the entries are visited in the
given order; `g` gives the value to write for a visited value (`none`: the
entry is skipped) and `dest` the key to write it under. -/
def valueLoop {β : Type} (g : β → Option β) (dest : GoString → GoString) :
    List (GoString × β) → List (GoString × β) → List (GoString × β)
  | [], live => live
  | (k, v) :: rest, live =>
    match g v with
    | some w => valueLoop g dest rest (kvSet (dest k) w live)
    | none => valueLoop g dest rest live

/-- The passes of a rule as the spec lists them: one pass for every populated
selector, in the order field value, field key, tag value, tag key,
measurement name. -/
def converter.passes (c : converter) (ord : RangeOrder) : List (Metric → Option Metric) :=
  (if c.Field ≠ [] then [c.convertField ord.field] else [])
  ++ (if c.FieldKey ≠ [] then [c.convertFieldKey ord.fieldKey] else [])
  ++ (if c.Tag ≠ [] then [c.convertTag ord.tag] else [])
  ++ (if c.TagKey ≠ [] then [c.convertTagKey ord.tagKey] else [])
  ++ (if c.Measurement ≠ [] then [c.convertMeasurement] else [])

/-- The composition of a list of passes: each pass sees the metric as the
previous one left it; a failure of a pass is the failure of the whole. -/
def runPasses : List (Metric → Option Metric) → Metric → Option Metric
  | [], m => some m
  | p :: rest, m =>
    match p m with
    | none => none
    | some m1 => runPasses rest m1

/-! ## Concrete inputs for the examples -/

/-- A case library for the examples: every case mapping is the identity (the
examples use no case rule). -/
def idLib : CaseLib := ⟨id, id, id⟩

/-- The schedule in which every `range` visits the entries as stored. -/
def storedSched : Nat → Nat → RangeOrder := fun _ _ => RangeOrder.stored

/-- A configuration with one `trim` rule on the tag `host` and one `left` rule
of width 3 on every field. -/
def trimLeftConfig : Strings :=
  { Trim := [{ Tag := str "host" }], Left := [{ Field := star, Width := 3 }] }

/-- A metric `cpu` with a tag `host` and two fields. -/
def cpuMetric : Metric :=
  ⟨str "cpu", [(str "host", str "  a  ")],
    [(str "state", FieldValue.str (str "hello")), (str "load", FieldValue.int 7)]⟩

/-- A metric `mem` with one string field. -/
def memMetric : Metric :=
  ⟨str "mem", [], [(str "unit", FieldValue.str (str "hi"))]⟩

/-- A configuration with one `left` rule of width -1 on the field `f`. -/
def negativeLeftConfig : Strings := { Left := [{ Field := str "f", Width := -1 }] }

/-- A metric with the string field `f`. -/
def fMetric : Metric := ⟨str "cpu", [], [(str "f", FieldValue.str (str "abc"))]⟩

/-- The ASCII part of `strings.ToUpper`, for the examples. -/
def asciiUpper (s : GoString) : GoString :=
  s.map (fun b => if 97 ≤ b.val ∧ b.val ≤ 122 then Fin.ofNat (b.val - 32) else b)

/-- A `uppercase` rule on every field key, bound to `asciiUpper`. -/
def upperKeyRule : converter :=
  { FieldKey := star, fn := some (fun s => some (asciiUpper s)) }

/-- A metric with the fields `a` and `b`. -/
def abMetric : Metric :=
  ⟨str "cpu", [], [(str "a", FieldValue.int 1), (str "b", FieldValue.int 2)]⟩

/-- The rule `initOnce` compiles from a `trim_prefix` entry with prefix `x` on
every field key and every tag key. -/
def stripXRule : converter :=
  { FieldKey := star, TagKey := star, Prefix := str "x",
    fn := some (trimPrefixFn { FieldKey := star, TagKey := star, Prefix := str "x" }) }

/-- A configuration with one `trim_prefix` entry, prefix `x`, on every field
key and every tag key. -/
def stripXConfig : Strings :=
  { TrimPrefix := [{ FieldKey := star, TagKey := star, Prefix := str "x" }] }

/-- A metric with the fields `xxa` and `xa`. -/
def chainMetric : Metric :=
  ⟨str "cpu", [], [(str "xxa", FieldValue.int 1), (str "xa", FieldValue.int 2)]⟩

/-- A metric whose fields and tags are `x` and `xb`. -/
def xMetric : Metric :=
  ⟨str "cpu", [(str "x", str "t1"), (str "xb", str "t2")],
    [(str "x", FieldValue.int 1), (str "xb", FieldValue.int 2)]⟩

/-- A rule on every field value, with a dest, bound to `asciiUpper`. -/
def upperFieldsRule : converter :=
  { Field := star, Dest := str "ignored", fn := some (fun s => some (asciiUpper s)) }

/-- A rule on the field `state` and the tag `host` with the dest `copy`, bound
to `asciiUpper`. -/
def upperCopyRule : converter :=
  { Field := str "state", Tag := str "host", Dest := str "copy",
    fn := some (fun s => some (asciiUpper s)) }

/-- A rule on the measurement `cpu`, bound to `asciiUpper`. -/
def upperNameRule : converter :=
  { Measurement := str "cpu", fn := some (fun s => some (asciiUpper s)) }

/-- A rule on every measurement and on the tag `host`, bound to
`asciiUpper`. -/
def upperTagNameRule : converter :=
  { Tag := str "host", Measurement := star, fn := some (fun s => some (asciiUpper s)) }

/-- A configuration with two `trim` rules, cutsets `x` and `y`, and two `left`
rules, widths 1 and 2, all on the field `f`. -/
def twoTrimConfig : Strings :=
  { Trim := [{ Field := str "f", Cutset := str "x" }, { Field := str "f", Cutset := str "y" }],
    Left := [{ Field := str "f", Width := 1 }, { Field := str "f", Width := 2 }] }

/-- A rule that selects the field `unit` and the tag `zone`, with a dest. -/
def absentRule : converter :=
  { Field := str "unit", FieldKey := str "unit", Tag := str "zone", TagKey := str "zone",
    Dest := str "d" }

theorem bindGroup_eq (bindFn : converter → convertFunc) (group : List converter) :
    ∀ converters : List converter,
      bindGroup bindFn group converters
        = converters ++ group.map (fun c => { c with fn := some (bindFn c) }) := by
  induction group with
  | nil => intro converters; simp [bindGroup]
  | cons c rest ih =>
    intro converters
    have h := ih (converters ++ [{ c with fn := some (bindFn c) }])
    simp only [bindGroup, List.foldl_cons] at h ⊢
    rw [h]
    simp

theorem initOnce_of_init (lib : CaseLib) (s : Strings) (h : s.init = true) :
    s.initOnce lib = s := by
  simp [Strings.initOnce, h]

theorem initOnce_init (lib : CaseLib) (s : Strings) : (s.initOnce lib).init = true := by
  by_cases h : s.init = true
  · rw [initOnce_of_init lib s h]; exact h
  · simp [Strings.initOnce, h]

theorem initOnce_twice (lib : CaseLib) (s : Strings) :
    (s.initOnce lib).initOnce lib = s.initOnce lib :=
  initOnce_of_init lib _ (initOnce_init lib s)

/-- The rule list of a fresh processor, group by group. -/
theorem initOnce_converters (lib : CaseLib) (s : Strings) (h : s.init = false) :
    (s.initOnce lib).converters
      = s.Lowercase.map (fun c => { c with fn := some (lowercaseFn lib) })
        ++ s.Uppercase.map (fun c => { c with fn := some (uppercaseFn lib) })
        ++ s.Titlecase.map (fun c => { c with fn := some (titlecaseFn lib) })
        ++ s.Trim.map (fun c => { c with fn := some (trimFn c) })
        ++ s.TrimLeft.map (fun c => { c with fn := some (trimLeftFn c) })
        ++ s.TrimRight.map (fun c => { c with fn := some (trimRightFn c) })
        ++ s.TrimPrefix.map (fun c => { c with fn := some (trimPrefixFn c) })
        ++ s.TrimSuffix.map (fun c => { c with fn := some (trimSuffixFn c) })
        ++ s.Replace.map (fun c => { c with fn := some (replaceFn c) })
        ++ s.Left.map (fun c => { c with fn := some (leftFn c) })
        ++ s.Base64Decode.map (fun c => { c with fn := some base64decodeFn })
        ++ s.ValidUTF8.map (fun c => { c with fn := some (validUTF8Fn c) }) := by
  simp only [Strings.initOnce, h, bindGroup_eq, Bool.false_eq_true, if_false, List.nil_append]

theorem unbound_bind (g : converter → convertFunc) (l : List converter) :
    (l.map (fun c => { c with fn := some (g c) })).map converter.unbound
      = l.map converter.unbound := by
  simp [List.map_map, Function.comp_def, converter.unbound]

theorem selectors_unbound (c : converter) : c.unbound.selectors = c.selectors := rfl

/-- C2: the rule list built by `initOnce` on a processor that was not
compiled yet is the concatenation of the twelve groups in the order lowercase,
uppercase, titlecase, trim, trim_left, trim_right, trim_prefix, trim_suffix,
replace, left, base64decode, valid_utf8, each group in its configured order:
rule by rule it has the configuration entries (everything but the bound
function), so its length is the sum of the group lengths and its `i`-th rule
has the selectors and the dest of the `i`-th entry. -/
theorem initOnce_rule_list (lib : CaseLib) (s : Strings) (h : s.init = false) :
    (s.initOnce lib).converters.map converter.unbound
        = (s.Lowercase ++ s.Uppercase ++ s.Titlecase ++ s.Trim ++ s.TrimLeft ++ s.TrimRight
            ++ s.TrimPrefix ++ s.TrimSuffix ++ s.Replace ++ s.Left ++ s.Base64Decode
            ++ s.ValidUTF8).map converter.unbound
    ∧ (s.initOnce lib).converters.length
        = s.Lowercase.length + s.Uppercase.length + s.Titlecase.length + s.Trim.length
          + s.TrimLeft.length + s.TrimRight.length + s.TrimPrefix.length
          + s.TrimSuffix.length + s.Replace.length + s.Left.length + s.Base64Decode.length
          + s.ValidUTF8.length
    ∧ (s.initOnce lib).converters.map converter.selectors
        = (s.Lowercase ++ s.Uppercase ++ s.Titlecase ++ s.Trim ++ s.TrimLeft ++ s.TrimRight
            ++ s.TrimPrefix ++ s.TrimSuffix ++ s.Replace ++ s.Left ++ s.Base64Decode
            ++ s.ValidUTF8).map converter.selectors
    ∧ (s.initOnce lib).init = true := by
  have hu : (s.initOnce lib).converters.map converter.unbound
        = (s.Lowercase ++ s.Uppercase ++ s.Titlecase ++ s.Trim ++ s.TrimLeft ++ s.TrimRight
            ++ s.TrimPrefix ++ s.TrimSuffix ++ s.Replace ++ s.Left ++ s.Base64Decode
            ++ s.ValidUTF8).map converter.unbound := by
    rw [initOnce_converters lib s h]
    simp only [List.map_append, unbound_bind]
  refine ⟨hu, ?_, ?_, initOnce_init lib s⟩
  · have := congrArg List.length hu
    simp only [List.length_map, List.length_append] at this
    omega
  · have := congrArg (List.map converter.selectors) hu
    simpa [List.map_map, Function.comp_def, selectors_unbound] using this

/-! ## `Apply` -/

theorem call_of_total (c : converter) (h : c.Total) (x : GoString) :
    ∃ y, c.call x = some y := by
  obtain ⟨f, hf, ht⟩ := h
  obtain ⟨y, hy⟩ := ht x
  exact ⟨y, by simp [converter.call, hf, hy]⟩

/-- A rule with a total transform computes a function on strings. -/
theorem computes_of_total (c : converter) (h : c.Total) : ∃ f, c.Computes f := by
  obtain ⟨g, hg, ht⟩ := h
  refine ⟨fun x => (g x).getD [], ?_⟩
  unfold converter.Computes
  rw [hg]
  congr 1
  funext x
  obtain ⟨y, hy⟩ := ht x
  simp [hy]

theorem convertTagLoop_total (c : converter) (h : c.Total) :
    ∀ (l : List (GoString × GoString)) (m : Metric), ∃ m1, c.convertTagLoop l m = some m1 := by
  intro l
  induction l with
  | nil => intro m; exact ⟨m, rfl⟩
  | cons e rest ih =>
    intro m
    obtain ⟨k, v⟩ := e
    obtain ⟨y, hy⟩ := call_of_total c h v
    simp only [converter.convertTagLoop, hy]
    exact ih _

theorem convertTagKeyLoop_total (c : converter) (h : c.Total) :
    ∀ (l : List (GoString × GoString)) (m : Metric),
      ∃ m1, c.convertTagKeyLoop l m = some m1 := by
  intro l
  induction l with
  | nil => intro m; exact ⟨m, rfl⟩
  | cons e rest ih =>
    intro m
    obtain ⟨k, v⟩ := e
    obtain ⟨y, hy⟩ := call_of_total c h k
    simp only [converter.convertTagKeyLoop, hy]
    split
    · exact ih _
    · exact ih _

theorem convertFieldLoop_total (c : converter) (h : c.Total) :
    ∀ (l : List (GoString × FieldValue)) (m : Metric),
      ∃ m1, c.convertFieldLoop l m = some m1 := by
  intro l
  induction l with
  | nil => intro m; exact ⟨m, rfl⟩
  | cons e rest ih =>
    intro m
    obtain ⟨k, v⟩ := e
    cases v with
    | str fv =>
      obtain ⟨y, hy⟩ := call_of_total c h fv
      simp only [converter.convertFieldLoop, hy]
      exact ih _
    | int i => simp only [converter.convertFieldLoop]; exact ih _
    | uint u => simp only [converter.convertFieldLoop]; exact ih _
    | float b => simp only [converter.convertFieldLoop]; exact ih _
    | bool b => simp only [converter.convertFieldLoop]; exact ih _

theorem convertFieldKeyLoop_total (c : converter) (h : c.Total) :
    ∀ (l : List (GoString × FieldValue)) (m : Metric),
      ∃ m1, c.convertFieldKeyLoop l m = some m1 := by
  intro l
  induction l with
  | nil => intro m; exact ⟨m, rfl⟩
  | cons e rest ih =>
    intro m
    obtain ⟨k, v⟩ := e
    obtain ⟨y, hy⟩ := call_of_total c h k
    simp only [converter.convertFieldKeyLoop, hy]
    split
    · exact ih _
    · exact ih _

/-- C3: compilation is idempotent.  A second `initOnce` returns the processor
of the first one unchanged (same rule list, flag set), and `Apply` gives the
same result after two compilations, after one, and on the processor as
configured. -/
theorem initOnce_idempotent (lib : CaseLib) (s : Strings) :
    (s.initOnce lib).initOnce lib = s.initOnce lib
    ∧ ((s.initOnce lib).initOnce lib).converters = (s.initOnce lib).converters
    ∧ ((s.initOnce lib).initOnce lib).init = true
    ∧ (s.initOnce lib).init = true
    ∧ ∀ (sched : Nat → Nat → RangeOrder) (heap : Heap) (ins : List Nat),
        ((s.initOnce lib).initOnce lib).Apply lib sched heap ins
            = (s.initOnce lib).Apply lib sched heap ins
        ∧ (s.initOnce lib).Apply lib sched heap ins = s.Apply lib sched heap ins := by
  have h2 := initOnce_twice lib s
  refine ⟨h2, by rw [h2], by rw [h2]; exact initOnce_init lib s, initOnce_init lib s, ?_⟩
  intro sched heap ins
  refine ⟨by rw [h2], ?_⟩
  unfold Strings.Apply
  simp only [h2]

/-- C4 (the code fails): the transform of a `left` rule of width -1 has no
result on the string "abc" (Go: `s[:-1]`, slice bounds out of range), and
`Apply` with that rule on a metric with such a field has none either. -/
theorem left_negative_width_fails :
    leftFn { Width := -1 } (str "abc") = none
    ∧ negativeLeftConfig.Apply idLib storedSched (heapOf [fMetric]) [0] = none :=
  ⟨by decide, rfl⟩

/-! ## Association lists -/

section kv
variable {β : Type}

theorem keys_cons (e : GoString × β) (l : List (GoString × β)) :
    keys (e :: l) = e.1 :: keys l := rfl

theorem keys_append (l1 l2 : List (GoString × β)) :
    keys (l1 ++ l2) = keys l1 ++ keys l2 := by
  simp [keys]

theorem mem_keys_of_mem {k : GoString} {v : β} {l : List (GoString × β)}
    (h : (k, v) ∈ l) : k ∈ keys l :=
  List.mem_map.2 ⟨(k, v), h, rfl⟩

theorem keys_perm {l1 l2 : List (GoString × β)} (h : l1.Perm l2) :
    (keys l1).Perm (keys l2) := h.map _

theorem kvSet_of_not_mem (k : GoString) (v : β) :
    ∀ l : List (GoString × β), k ∉ keys l → kvSet k v l = l ++ [(k, v)] := by
  intro l
  induction l with
  | nil => intro _; rfl
  | cons e rest ih =>
    intro h
    obtain ⟨k1, v1⟩ := e
    simp only [keys_cons, List.mem_cons, not_or] at h
    have hne : ¬ k1 = k := fun h1 => h.1 h1.symm
    simp [kvSet, hne, ih h.2]

theorem keys_kvSet_of_mem (k : GoString) (v : β) :
    ∀ l : List (GoString × β), k ∈ keys l → keys (kvSet k v l) = keys l := by
  intro l
  induction l with
  | nil => intro h; simp [keys] at h
  | cons e rest ih =>
    intro h
    obtain ⟨k1, v1⟩ := e
    by_cases h1 : k1 = k
    · simp [kvSet, h1, keys]
    · have : k ∈ keys rest := by
        simp only [keys_cons, List.mem_cons] at h
        rcases h with h | h
        · exact absurd h.symm h1
        · exact h
      simp only [kvSet, h1, if_false, keys_cons, ih this]

theorem mem_keys_kvSet (k : GoString) (v : β) (a : GoString) (l : List (GoString × β)) :
    a ∈ keys (kvSet k v l) ↔ a = k ∨ a ∈ keys l := by
  by_cases h : k ∈ keys l
  · rw [keys_kvSet_of_mem k v l h]
    constructor
    · exact Or.inr
    · rintro (rfl | h1)
      · exact h
      · exact h1
  · rw [kvSet_of_not_mem k v l h, keys_append]
    simp [keys, or_comm]

theorem kvErase_sublist (k : GoString) :
    ∀ l : List (GoString × β), (kvErase k l).Sublist l := by
  intro l
  induction l with
  | nil => exact List.Sublist.refl _
  | cons e rest ih =>
    obtain ⟨k1, v1⟩ := e
    by_cases h1 : k1 = k
    · simp only [kvErase, h1, if_true]
      exact List.sublist_cons_self _ _
    · simp only [kvErase, h1, if_false]
      exact ih.cons₂ _

theorem mem_keys_kvErase_of_ne {k a : GoString} (hne : a ≠ k) :
    ∀ l : List (GoString × β), a ∈ keys (kvErase k l) ↔ a ∈ keys l := by
  intro l
  induction l with
  | nil => simp [kvErase]
  | cons e rest ih =>
    obtain ⟨k1, v1⟩ := e
    by_cases h1 : k1 = k
    · subst h1
      simp only [kvErase, if_true, keys_cons, List.mem_cons]
      constructor
      · exact Or.inr
      · rintro (h | h)
        · exact absurd h hne
        · exact h
    · simp only [kvErase, h1, if_false, keys_cons, List.mem_cons, ih]

theorem mem_keys_of_mem_kvErase {k a : GoString} {l : List (GoString × β)}
    (h : a ∈ keys (kvErase k l)) : a ∈ keys l :=
  ((kvErase_sublist k l).map Prod.fst).subset h

theorem kvErase_of_not_mem (k : GoString) :
    ∀ l : List (GoString × β), k ∉ keys l → kvErase k l = l := by
  intro l
  induction l with
  | nil => intro _; rfl
  | cons e rest ih =>
    intro h
    obtain ⟨k1, v1⟩ := e
    simp only [keys_cons, List.mem_cons, not_or] at h
    have hne : ¬ k1 = k := fun h1 => h.1 h1.symm
    simp [kvErase, hne, ih h.2]

theorem kvErase_perm {k : GoString} {v : β} :
    ∀ {l : List (GoString × β)}, (keys l).Nodup → (k, v) ∈ l →
      l.Perm ((k, v) :: kvErase k l) := by
  intro l
  induction l with
  | nil => intro _ h; simp at h
  | cons e rest ih =>
    intro hnd hmem
    obtain ⟨k1, v1⟩ := e
    simp only [keys_cons, List.nodup_cons] at hnd
    by_cases h1 : k1 = k
    · subst h1
      simp only [kvErase, if_true]
      rcases List.mem_cons.1 hmem with h | h
      · rw [h]
      · exact absurd (mem_keys_of_mem h) hnd.1
    · simp only [kvErase, h1, if_false]
      rcases List.mem_cons.1 hmem with h | h
      · exact absurd (congrArg Prod.fst h).symm h1
      · exact ((ih hnd.2 h).cons _).trans (List.Perm.swap _ _ _)

theorem nodup_keys_kvErase (k : GoString) {l : List (GoString × β)}
    (h : (keys l).Nodup) : (keys (kvErase k l)).Nodup :=
  h.sublist ((kvErase_sublist k l).map Prod.fst)

theorem not_mem_keys_kvErase (k : GoString) :
    ∀ {l : List (GoString × β)}, (keys l).Nodup → k ∉ keys (kvErase k l) := by
  intro l
  induction l with
  | nil => intro _; simp [kvErase, keys]
  | cons e rest ih =>
    intro hnd
    obtain ⟨k1, v1⟩ := e
    simp only [keys_cons, List.nodup_cons] at hnd
    by_cases h1 : k1 = k
    · subst h1
      simpa only [kvErase, if_true] using hnd.1
    · simp only [kvErase, h1, if_false, keys_cons, List.mem_cons, not_or]
      exact ⟨fun h => h1 h.symm, ih hnd.2⟩

theorem nodup_keys_kvSet (k : GoString) (v : β) {l : List (GoString × β)}
    (h : (keys l).Nodup) : (keys (kvSet k v l)).Nodup := by
  by_cases hk : k ∈ keys l
  · rw [keys_kvSet_of_mem k v l hk]; exact h
  · rw [kvSet_of_not_mem k v l hk, keys_append]
    simp only [keys, List.map_cons, List.map_nil]
    exact List.Nodup.append h (List.nodup_singleton _) (by
      intro a ha hb
      simp only [List.mem_singleton] at hb
      subst hb
      exact hk ha)

theorem kvGet_eq_some_of_mem {k : GoString} {v : β} :
    ∀ {l : List (GoString × β)}, (keys l).Nodup → (k, v) ∈ l → kvGet k l = some v := by
  intro l
  induction l with
  | nil => intro _ h; simp at h
  | cons e rest ih =>
    intro hnd hmem
    obtain ⟨k1, v1⟩ := e
    simp only [keys_cons, List.nodup_cons] at hnd
    by_cases h1 : k1 = k
    · subst h1
      rcases List.mem_cons.1 hmem with h | h
      · simp only [Prod.mk.injEq, true_and] at h
        simp [kvGet, h]
      · exact absurd (mem_keys_of_mem h) hnd.1
    · rcases List.mem_cons.1 hmem with h | h
      · exact absurd (congrArg Prod.fst h).symm h1
      · simp only [kvGet, h1, if_false]
        exact ih hnd.2 h

theorem kvGet_eq_none_iff (k : GoString) :
    ∀ l : List (GoString × β), kvGet k l = none ↔ k ∉ keys l := by
  intro l
  induction l with
  | nil => simp [kvGet, keys]
  | cons e rest ih =>
    obtain ⟨k1, v1⟩ := e
    by_cases h1 : k1 = k
    · simp [kvGet, h1, keys]
    · simp only [kvGet, h1, if_false, ih, keys_cons, List.mem_cons, not_or]
      exact ⟨fun h => ⟨fun h2 => h1 h2.symm, h⟩, fun h => h.2⟩

theorem mem_of_kvGet_eq_some {k : GoString} {v : β} :
    ∀ {l : List (GoString × β)}, kvGet k l = some v → (k, v) ∈ l := by
  intro l
  induction l with
  | nil => intro h; simp [kvGet] at h
  | cons e rest ih =>
    intro h
    obtain ⟨k1, v1⟩ := e
    by_cases h1 : k1 = k
    · simp only [kvGet, h1, if_true, Option.some.injEq] at h
      simp [h1, h]
    · simp only [kvGet, h1, if_false] at h
      exact List.mem_cons_of_mem _ (ih h)

end kv

/-! ## The key passes on the association list -/

section rename
variable {β : Type}

theorem renameKey_of_ne {f : GoString → GoString} {k : GoString} (h : f k ≠ []) :
    renameKey f k = f k := by
  simp [renameKey, h]

theorem renameKey_of_eq {f : GoString → GoString} {k : GoString} (h : f k = []) :
    renameKey f k = k := by
  simp [renameKey, h]

theorem nodup_keys_renameLoop (f : GoString → GoString) :
    ∀ (rest live : List (GoString × β)), (keys live).Nodup →
      (keys (renameLoop f rest live)).Nodup := by
  intro rest
  induction rest with
  | nil => intro live h; exact h
  | cons e rest ih =>
    intro live h
    obtain ⟨k, v⟩ := e
    simp only [renameLoop]
    split
    · exact ih _ (nodup_keys_kvSet _ _ (nodup_keys_kvErase _ h))
    · exact ih _ h

/-- The key pass, entry by entry: as long as no new key collides with a key
that is still there, the entries visited so far sit under their new keys and
the others are untouched. -/
theorem renameLoop_perm_aux (f : GoString → GoString) (K0 : List GoString)
    (hinj : ∀ a ∈ K0, ∀ b ∈ K0, f a = f b → a = b)
    (hfresh : ∀ a ∈ K0, f a ∈ K0 → f a = a) :
    ∀ (rest done live : List (GoString × β)),
      live.Perm (done ++ rest) → (keys live).Nodup → (∀ k ∈ keys rest, k ∈ K0) →
      (∀ k ∈ keys done, ∃ a ∈ K0, a ∉ keys rest ∧ k = renameKey f a) →
      (renameLoop f rest live).Perm (done ++ rest.map (fun e => (renameKey f e.1, e.2))) := by
  intro rest
  induction rest with
  | nil => intro done live hp _ _ _; simpa [renameLoop] using hp
  | cons e rest ih =>
    intro done live hp hnd hK hdone
    obtain ⟨k, v⟩ := e
    have hk0 : k ∈ K0 := hK k (by simp [keys])
    have hmem : (k, v) ∈ live := hp.symm.subset (by simp)
    have hnd2 : (keys (done ++ (k, v) :: rest)).Nodup := (keys_perm hp).nodup_iff.1 hnd
    rw [keys_append, keys_cons] at hnd2
    have hkrest : k ∉ keys rest := by
      have := (List.nodup_append.1 hnd2).2.1
      exact (List.nodup_cons.1 this).1
    have hK2 : ∀ k1 ∈ keys rest, k1 ∈ K0 := fun k1 h1 => hK k1 (by simp [keys_cons, h1])
    by_cases hfk : f k = []
    · have hstep : renameLoop f ((k, v) :: rest) live = renameLoop f rest live := by
        simp [renameLoop, hfk]
      rw [hstep]
      have := ih (done ++ [(k, v)]) live (by simpa using hp) hnd hK2 (by
        intro k1 h1
        rw [keys_append] at h1
        rcases List.mem_append.1 h1 with h1 | h1
        · obtain ⟨a, ha, har, hka⟩ := hdone k1 h1
          refine ⟨a, ha, ?_, hka⟩
          intro h2
          exact har (by simp [keys_cons, h2])
        · simp only [keys, List.map_cons, List.map_nil, List.mem_singleton] at h1
          exact ⟨k, hk0, hkrest, by rw [h1, renameKey_of_eq hfk]⟩)
      simpa [renameKey_of_eq hfk] using this
    · have hstep : renameLoop f ((k, v) :: rest) live
          = renameLoop f rest (kvSet (f k) v (kvErase k live)) := by
        simp [renameLoop, hfk]
      rw [hstep]
      have hpe : (kvErase k live).Perm (done ++ rest) := by
        have h1 : ((k, v) :: kvErase k live).Perm ((k, v) :: (done ++ rest)) :=
          (kvErase_perm hnd hmem).symm.trans (hp.trans List.perm_middle)
        exact h1.cons_inv
      have hnot : f k ∉ keys (kvErase k live) := by
        intro hin
        have hin2 : f k ∈ keys (done ++ rest) := (keys_perm hpe).subset hin
        rw [keys_append] at hin2
        rcases List.mem_append.1 hin2 with h1 | h1
        · obtain ⟨a, ha, har, hka⟩ := hdone _ h1
          have hak : a ≠ k := fun h => har (by simp [keys_cons, h])
          by_cases hfa : f a = []
          · rw [renameKey_of_eq hfa] at hka
            have h3 : f k = k := hfresh k hk0 (by rw [hka]; exact ha)
            exact hak (by rw [← hka, h3])
          · rw [renameKey_of_ne hfa] at hka
            exact hak (hinj a ha k hk0 hka.symm)
        · have h3 : f k = k := hfresh k hk0 (hK2 _ h1)
          rw [h3] at h1
          exact hkrest h1
      rw [kvSet_of_not_mem _ _ _ hnot]
      have hnd3 : (keys (kvErase k live ++ [(f k, v)])).Nodup := by
        rw [← kvSet_of_not_mem _ _ _ hnot]
        exact nodup_keys_kvSet _ _ (nodup_keys_kvErase _ hnd)
      have := ih (done ++ [(f k, v)]) (kvErase k live ++ [(f k, v)]) (by
          have h1 : (kvErase k live ++ [(f k, v)]).Perm ((done ++ rest) ++ [(f k, v)]) :=
            hpe.append_right _
          refine h1.trans ?_
          simp only [List.append_assoc]
          exact List.Perm.append_left _ List.perm_append_comm) hnd3 hK2 (by
        intro k1 h1
        rw [keys_append] at h1
        rcases List.mem_append.1 h1 with h1 | h1
        · obtain ⟨a, ha, har, hka⟩ := hdone k1 h1
          refine ⟨a, ha, ?_, hka⟩
          intro h2
          exact har (by simp [keys_cons, h2])
        · simp only [keys, List.map_cons, List.map_nil, List.mem_singleton] at h1
          exact ⟨k, hk0, hkrest, by rw [h1, renameKey_of_ne hfk]⟩)
      simpa [renameKey_of_ne hfk] using this

/-- A key pass over all entries, in any order: when the key transform is
injective on the keys and sends no key to another key of the list, the result
holds, up to the order of storage, each entry under its new key. -/
theorem renameLoop_perm (f : GoString → GoString) (l order : List (GoString × β))
    (hnd : (keys l).Nodup) (hord : order.Perm l)
    (hinj : ∀ a ∈ keys l, ∀ b ∈ keys l, f a = f b → a = b)
    (hfresh : ∀ a ∈ keys l, f a ∈ keys l → f a = a) :
    (renameLoop f order l).Perm (l.map (fun e => (renameKey f e.1, e.2))) := by
  have := renameLoop_perm_aux f (keys l) hinj hfresh order [] l (by simpa using hord.symm) hnd
    (fun k hk => (keys_perm hord).subset hk) (by intro k hk; simp [keys] at hk)
  simp only [List.nil_append] at this
  exact this.trans (hord.map _)

end rename

theorem convertFieldKeyLoop_computes (c : converter) (f : GoString → GoString)
    (hc : c.Computes f) :
    ∀ (l : List (GoString × FieldValue)) (m : Metric),
      c.convertFieldKeyLoop l m = some { m with fields := renameLoop f l m.fields } := by
  intro l
  induction l with
  | nil => intro m; rfl
  | cons e rest ih =>
    intro m
    obtain ⟨k, v⟩ := e
    have hcall : c.call k = some (f k) := by
      unfold converter.Computes at hc
      simp [converter.call, hc]
    simp only [converter.convertFieldKeyLoop, hcall, renameLoop]
    by_cases h : f k = []
    · simp only [h, ne_eq, not_true_eq_false, if_false]
      exact ih m
    · simp only [h, ne_eq, not_false_eq_true, if_true]
      rw [ih]
      rfl

theorem convertTagKeyLoop_computes (c : converter) (f : GoString → GoString)
    (hc : c.Computes f) :
    ∀ (l : List (GoString × GoString)) (m : Metric),
      c.convertTagKeyLoop l m = some { m with tags := renameLoop f l m.tags } := by
  intro l
  induction l with
  | nil => intro m; rfl
  | cons e rest ih =>
    intro m
    obtain ⟨k, v⟩ := e
    have hcall : c.call k = some (f k) := by
      unfold converter.Computes at hc
      simp [converter.call, hc]
    simp only [converter.convertTagKeyLoop, hcall, renameLoop]
    by_cases h : f k = []
    · simp only [h, ne_eq, not_true_eq_false, if_false]
      exact ih m
    · simp only [h, ne_eq, not_false_eq_true, if_true]
      rw [ih]
      rfl

/-! ## C5: the wildcard field-key pass -/

theorem kvGet_perm {β : Type} {l1 l2 : List (GoString × β)} (h : l1.Perm l2)
    (hnd : (keys l1).Nodup) (k : GoString) : kvGet k l1 = kvGet k l2 := by
  have hnd2 : (keys l2).Nodup := (keys_perm h).nodup_iff.1 hnd
  cases h1 : kvGet k l1 with
  | none =>
    have : k ∉ keys l2 := fun h2 =>
      (kvGet_eq_none_iff k l1).1 h1 ((keys_perm h).symm.subset h2)
    exact ((kvGet_eq_none_iff k l2).2 this).symm
  | some v =>
    exact (kvGet_eq_some_of_mem hnd2 (h.subset (mem_of_kvGet_eq_some h1))).symm

theorem convertFieldKey_star (c : converter) (f : GoString → GoString)
    (hc : c.Computes f) (hs : c.FieldKey = star) (m : Metric)
    (ord : List (GoString × FieldValue) → List (GoString × FieldValue)) :
    c.convertFieldKey ord m
      = some { m with fields := renameLoop f (ord m.fields) m.fields } := by
  simp only [converter.convertFieldKey, hs, if_true, Metric.Fields]
  exact convertFieldKeyLoop_computes c f hc _ _

theorem convertTagKey_star (c : converter) (f : GoString → GoString)
    (hc : c.Computes f) (hs : c.TagKey = star) (m : Metric)
    (ord : List (GoString × GoString) → List (GoString × GoString)) :
    c.convertTagKey ord m
      = some { m with tags := renameLoop f (ord m.tags) m.tags } := by
  simp only [converter.convertTagKey, hs, if_true, Metric.Tags]
  exact convertTagKeyLoop_computes c f hc _ _

/-- C5, as amended: let the field keys of a metric be unique and let the key
transform `f` be injective on them, send none of them to the empty string and
send none of them to another field key of the metric.  Then a field-key rule
with selector `*` returns a metric whose fields are exactly the original
entries, each under its transformed key: no field is lost or duplicated, every
lookup finds the value of the one original key that is mapped there, and every
order of visiting the snapshot gives the same mapping. -/
theorem convertFieldKey_wildcard_renames (c : converter) (f : GoString → GoString)
    (hc : c.Computes f) (hs : c.FieldKey = star) (m : Metric)
    (ord : List (GoString × FieldValue) → List (GoString × FieldValue))
    (hord : (ord m.Fields).Perm m.Fields)
    (hwf : (keys m.fields).Nodup)
    (hinj : ∀ a ∈ keys m.fields, ∀ b ∈ keys m.fields, f a = f b → a = b)
    (hne : ∀ a ∈ keys m.fields, f a ≠ [])
    (hfresh : ∀ a ∈ keys m.fields, f a ∈ keys m.fields → f a = a) :
    ∃ m1, c.convertFieldKey ord m = some m1
      ∧ m1.fields.Perm (m.fields.map (fun e => (f e.1, e.2)))
      ∧ (keys m1.fields).Nodup
      ∧ m1.fields.length = m.fields.length
      ∧ (∀ k v, m1.GetField k = some v ↔ ∃ k0, (k0, v) ∈ m.fields ∧ f k0 = k)
      ∧ m1.name = m.name ∧ m1.tags = m.tags
      ∧ ∀ ord2 : List (GoString × FieldValue) → List (GoString × FieldValue),
          (ord2 m.Fields).Perm m.Fields →
          ∃ m2, c.convertFieldKey ord2 m = some m2 ∧ m2.fields.Perm m1.fields
            ∧ ∀ k, m2.GetField k = m1.GetField k := by
  have hmap : m.fields.map (fun e => (renameKey f e.1, e.2))
      = m.fields.map (fun e => (f e.1, e.2)) := by
    apply List.map_congr_left
    intro e he
    rw [renameKey_of_ne (hne e.1 (mem_keys_of_mem (v := e.2) he))]
  have hp : ∀ o : List (GoString × FieldValue) → List (GoString × FieldValue),
      (o m.fields).Perm m.fields →
      (renameLoop f (o m.fields) m.fields).Perm (m.fields.map (fun e => (f e.1, e.2))) := by
    intro o ho
    have := renameLoop_perm f m.fields (o m.fields) hwf ho hinj hfresh
    rwa [hmap] at this
  have hnd : ∀ o : List (GoString × FieldValue) → List (GoString × FieldValue),
      (keys (renameLoop f (o m.fields) m.fields)).Nodup :=
    fun o => nodup_keys_renameLoop f _ _ hwf
  refine ⟨_, convertFieldKey_star c f hc hs m ord, hp ord hord, hnd ord, ?_, ?_, rfl, rfl, ?_⟩
  · simpa using (hp ord hord).length_eq
  · intro k v
    simp only [Metric.GetField]
    constructor
    · intro h
      have h1 := (hp ord hord).subset (mem_of_kvGet_eq_some h)
      obtain ⟨e, he, heq⟩ := List.mem_map.1 h1
      simp only [Prod.mk.injEq] at heq
      exact ⟨e.1, by rw [← heq.2]; exact he, heq.1⟩
    · rintro ⟨k0, hk0, rfl⟩
      exact kvGet_eq_some_of_mem (hnd ord)
        ((hp ord hord).symm.subset (List.mem_map.2 ⟨(k0, v), hk0, rfl⟩))
  · intro ord2 hord2
    have hp2 : (renameLoop f (ord2 m.fields) m.fields).Perm
        (renameLoop f (ord m.fields) m.fields) := (hp ord2 hord2).trans (hp ord hord).symm
    exact ⟨_, convertFieldKey_star c f hc hs m ord2, hp2,
      fun k => kvGet_perm hp2 (hnd ord2) k⟩

/-- C5 (amended) at the fields `a`, `b` and the upper-case transform, visited
last to first: the fields are `A` and `B` with the values of `a` and `b`. -/
theorem convertFieldKey_wildcard_renames_witness :
    ∃ m1, upperKeyRule.convertFieldKey List.reverse abMetric = some m1
      ∧ m1.fields.Perm (abMetric.fields.map (fun e => (asciiUpper e.1, e.2)))
      ∧ (keys m1.fields).Nodup
      ∧ m1.fields.length = abMetric.fields.length
      ∧ (∀ k v, m1.GetField k = some v ↔ ∃ k0, (k0, v) ∈ abMetric.fields ∧ asciiUpper k0 = k)
      ∧ m1.name = abMetric.name ∧ m1.tags = abMetric.tags
      ∧ ∀ ord2 : List (GoString × FieldValue) → List (GoString × FieldValue),
          (ord2 abMetric.Fields).Perm abMetric.Fields →
          ∃ m2, upperKeyRule.convertFieldKey ord2 abMetric = some m2
            ∧ m2.fields.Perm m1.fields ∧ ∀ k, m2.GetField k = m1.GetField k :=
  convertFieldKey_wildcard_renames upperKeyRule asciiUpper rfl rfl abMetric List.reverse
    (by decide) (by decide) (by decide) (by decide) (by decide)

/-- C5 as stated fails: on the fields `xxa -> 1`, `xa -> 2` the transform
"strip the prefix x" is injective on the keys and gives no empty key, yet the
wildcard field-key pass that visits `xxa` first returns the single field
`a -> 2` (the field of `xxa` is lost), while the pass that visits `xa` first
returns both fields: the result depends on the order of the visit.  `Apply`
with the `trim_prefix` configuration and the stored order loses the field. -/
theorem convertFieldKey_wildcard_counterexample :
    stripXRule.Computes (fun k => TrimPrefix k (str "x"))
    ∧ (keys chainMetric.fields).Nodup
    ∧ (∀ a ∈ keys chainMetric.fields, ∀ b ∈ keys chainMetric.fields,
        TrimPrefix a (str "x") = TrimPrefix b (str "x") → a = b)
    ∧ (∀ a ∈ keys chainMetric.fields, TrimPrefix a (str "x") ≠ [])
    ∧ stripXRule.convertFieldKey id chainMetric
        = some ⟨str "cpu", [], [(str "a", FieldValue.int 2)]⟩
    ∧ ¬ List.Perm [(str "a", FieldValue.int 2)]
        (chainMetric.fields.map (fun e => (TrimPrefix e.1 (str "x"), e.2)))
    ∧ stripXRule.convertFieldKey List.reverse chainMetric
        = some ⟨str "cpu", [], [(str "a", FieldValue.int 2), (str "xa", FieldValue.int 1)]⟩
    ∧ (stripXConfig.Apply idLib storedSched (heapOf [chainMetric]) [0]).map
          (fun r => deref r.2.1 r.2.2)
        = some [⟨str "cpu", [], [(str "a", FieldValue.int 2)]⟩] := by
  refine ⟨rfl, by decide, by decide, by decide, by decide, ?_, by decide, by decide⟩
  intro h
  have := h.length_eq
  simp [chainMetric] at this

/-! ## C6: a key that is transformed to the empty string -/

section skip
variable {β : Type}

theorem renameLoop_keeps_skipped (f : GoString → GoString) (k : GoString) (hk : f k = []) :
    ∀ (order live : List (GoString × β)), k ∈ keys live → k ∈ keys (renameLoop f order live) := by
  intro order
  induction order with
  | nil => intro live h; exact h
  | cons e rest ih =>
    intro live h
    obtain ⟨k1, v1⟩ := e
    simp only [renameLoop]
    split
    · rename_i h1
      have hne : k ≠ k1 := fun h2 => h1 (by rw [← h2]; exact hk)
      exact ih _ ((mem_keys_kvSet _ _ _ _).2
        (Or.inr ((mem_keys_kvErase_of_ne hne live).2 h)))
    · exact ih _ h

theorem renameLoop_no_empty_key (f : GoString → GoString) :
    ∀ (order live : List (GoString × β)), [] ∉ keys live →
      [] ∉ keys (renameLoop f order live) := by
  intro order
  induction order with
  | nil => intro live h; exact h
  | cons e rest ih =>
    intro live h
    obtain ⟨k1, v1⟩ := e
    simp only [renameLoop]
    split
    · rename_i h1
      apply ih
      intro h2
      rcases (mem_keys_kvSet _ _ _ _).1 h2 with h3 | h3
      · exact h1 h3.symm
      · exact h (mem_keys_of_mem_kvErase h3)
    · exact ih _ h

theorem renameLoop_eq_foldl (f : GoString → GoString) :
    ∀ (order live : List (GoString × β)),
      renameLoop f order live
        = (order.filter (fun e => decide (f e.1 ≠ []))).foldl
            (fun l e => kvSet (f e.1) e.2 (kvErase e.1 l)) live := by
  intro order
  induction order with
  | nil => intro live; rfl
  | cons e rest ih =>
    intro live
    obtain ⟨k1, v1⟩ := e
    by_cases h1 : f k1 = []
    · simp [renameLoop, h1, ih]
    · simp [renameLoop, h1, ih]

end skip

theorem foldl_fields (f : GoString → GoString) :
    ∀ (l : List (GoString × FieldValue)) (m : Metric),
      l.foldl (fun mt e => (mt.RemoveField e.1).AddField (f e.1) e.2) m
        = { m with fields := l.foldl (fun l e => kvSet (f e.1) e.2 (kvErase e.1 l)) m.fields } := by
  intro l
  induction l with
  | nil => intro m; rfl
  | cons e rest ih => intro m; simp only [List.foldl_cons, ih]; rfl

theorem foldl_tags (f : GoString → GoString) :
    ∀ (l : List (GoString × GoString)) (m : Metric),
      l.foldl (fun mt e => (mt.RemoveTag e.1).AddTag (f e.1) e.2) m
        = { m with tags := l.foldl (fun l e => kvSet (f e.1) e.2 (kvErase e.1 l)) m.tags } := by
  intro l
  induction l with
  | nil => intro m; rfl
  | cons e rest ih => intro m; simp only [List.foldl_cons, ih]; rfl

theorem convertFieldKey_exact (c : converter) (f : GoString → GoString)
    (hc : c.Computes f) (hs : c.FieldKey ≠ star) (m : Metric)
    (ord : List (GoString × FieldValue) → List (GoString × FieldValue)) :
    c.convertFieldKey ord m =
      match m.GetField c.FieldKey with
      | none => some m
      | some fv => some { m with fields := renameLoop f [(c.FieldKey, fv)] m.fields } := by
  simp only [converter.convertFieldKey, hs, if_false]
  cases m.GetField c.FieldKey with
  | none => rfl
  | some fv => exact convertFieldKeyLoop_computes c f hc _ _

theorem convertTagKey_exact (c : converter) (f : GoString → GoString)
    (hc : c.Computes f) (hs : c.TagKey ≠ star) (m : Metric)
    (ord : List (GoString × GoString) → List (GoString × GoString)) :
    c.convertTagKey ord m =
      match m.GetTag c.TagKey with
      | none => some m
      | some tv => some { m with tags := renameLoop f [(c.TagKey, tv)] m.tags } := by
  simp only [converter.convertTagKey, hs, if_false]
  cases m.GetTag c.TagKey with
  | none => rfl
  | some tv => exact convertTagKeyLoop_computes c f hc _ _

/-- C6: a key pass (field keys, tag keys) of a rule with the total key
transform `f`.  The pass returns a metric in which (1), for the selector `*`,
every key `k` of the metric with `f k` empty is still a key; (2) the empty key
is a key only if it was one before; (3), for the selector `*`, the entries
visited with a non-empty transformed key, and only those, were removed and
added again under the transformed key, in the order of the visit; and (4), for
an exact selector whose transformed key is empty, nothing has changed. -/
theorem key_pass_skips_empty_key (c : converter) (f : GoString → GoString)
    (hc : c.Computes f) (m : Metric)
    (ordF : List (GoString × FieldValue) → List (GoString × FieldValue))
    (ordT : List (GoString × GoString) → List (GoString × GoString)) :
    (∃ m1, c.convertFieldKey ordF m = some m1
      ∧ (c.FieldKey = star → ∀ k ∈ keys m.fields, f k = [] → k ∈ keys m1.fields)
      ∧ ([] ∉ keys m.fields → [] ∉ keys m1.fields)
      ∧ (c.FieldKey = star →
          m1 = ((ordF m.Fields).filter (fun e => decide (f e.1 ≠ []))).foldl
                (fun mt e => (mt.RemoveField e.1).AddField (f e.1) e.2) m)
      ∧ (c.FieldKey ≠ star → f c.FieldKey = [] → m1 = m))
    ∧ (∃ m2, c.convertTagKey ordT m = some m2
      ∧ (c.TagKey = star → ∀ k ∈ keys m.tags, f k = [] → k ∈ keys m2.tags)
      ∧ ([] ∉ keys m.tags → [] ∉ keys m2.tags)
      ∧ (c.TagKey = star →
          m2 = ((ordT m.Tags).filter (fun e => decide (f e.1 ≠ []))).foldl
                (fun mt e => (mt.RemoveTag e.1).AddTag (f e.1) e.2) m)
      ∧ (c.TagKey ≠ star → f c.TagKey = [] → m2 = m)) := by
  constructor
  · by_cases hs : c.FieldKey = star
    · refine ⟨_, convertFieldKey_star c f hc hs m ordF, ?_, ?_, ?_, fun h => absurd hs h⟩
      · intro _ k hk hfk
        exact renameLoop_keeps_skipped f k hfk _ _ hk
      · exact renameLoop_no_empty_key f _ _
      · intro _
        rw [foldl_fields, renameLoop_eq_foldl]
        rfl
    · rw [convertFieldKey_exact c f hc hs m ordF]
      cases hg : m.GetField c.FieldKey with
      | none =>
        exact ⟨m, rfl, fun h => absurd h hs, fun h => h, fun h => absurd h hs, fun _ _ => rfl⟩
      | some fv =>
        refine ⟨_, rfl, fun h => absurd h hs, ?_, fun h => absurd h hs, ?_⟩
        · exact renameLoop_no_empty_key f _ _
        · intro _ hf
          simp [renameLoop, hf]
  · by_cases hs : c.TagKey = star
    · refine ⟨_, convertTagKey_star c f hc hs m ordT, ?_, ?_, ?_, fun h => absurd hs h⟩
      · intro _ k hk hfk
        exact renameLoop_keeps_skipped f k hfk _ _ hk
      · exact renameLoop_no_empty_key f _ _
      · intro _
        rw [foldl_tags, renameLoop_eq_foldl]
        rfl
    · rw [convertTagKey_exact c f hc hs m ordT]
      cases hg : m.GetTag c.TagKey with
      | none =>
        exact ⟨m, rfl, fun h => absurd h hs, fun h => h, fun h => absurd h hs, fun _ _ => rfl⟩
      | some tv =>
        refine ⟨_, rfl, fun h => absurd h hs, ?_, fun h => absurd h hs, ?_⟩
        · exact renameLoop_no_empty_key f _ _
        · intro _ hf
          simp [renameLoop, hf]

/-- C6 at the fields and tags `x`, `xb` and the rule that strips the prefix
`x` from every key: `x` would become the empty key and is kept, `xb` is
renamed to `b`. -/
theorem key_pass_skips_empty_key_witness :
    stripXRule.convertFieldKey id xMetric
        = some ⟨str "cpu", [(str "x", str "t1"), (str "xb", str "t2")],
            [(str "x", FieldValue.int 1), (str "b", FieldValue.int 2)]⟩
    ∧ stripXRule.convertTagKey id xMetric
        = some ⟨str "cpu", [(str "x", str "t1"), (str "b", str "t2")],
            [(str "x", FieldValue.int 1), (str "xb", FieldValue.int 2)]⟩ := by
  obtain ⟨⟨m1, h1, _, _, h13, _⟩, ⟨m2, h2, _, _, h23, _⟩⟩ :=
    key_pass_skips_empty_key stripXRule (fun k => TrimPrefix k (str "x")) rfl xMetric id id
  rw [h1, h2, h13 rfl, h23 rfl]
  constructor <;> decide

/-- C2 at a configuration with a `trim` rule and a `left` rule: the rule list
has the two entries, `trim` before `left`. -/
theorem initOnce_rule_list_witness :
    (trimLeftConfig.initOnce idLib).converters.map converter.selectors
      = [(([] : GoString), ([] : GoString), str "host", ([] : GoString), ([] : GoString),
            ([] : GoString)),
          (star, [], [], [], [], [])]
    ∧ (trimLeftConfig.initOnce idLib).converters.length = 2 := by
  have h := initOnce_rule_list idLib trimLeftConfig rfl
  exact ⟨h.2.2.1.trans rfl, h.2.1.trans rfl⟩

/-! ## `strings.ReplaceAll` -/

theorem replaceAux_nil (old new : GoString) (k : Nat) : replaceAux old new k [] = [] := by
  cases k <;> rfl

theorem replaceAux_drop (old new : GoString) :
    ∀ (s : GoString) (k : Nat), replaceAux old new k s = replaceAux old new 0 (s.drop k) := by
  intro s
  induction s with
  | nil => intro k; simp [replaceAux_nil]
  | cons b rest ih =>
    intro k
    cases k with
    | zero => rfl
    | succ k => simp only [replaceAux, List.drop_succ_cons]; exact ih k

/-- What `strings.ReplaceAll` computes for a non-empty `old`: at an occurrence
of `old` the result has `new` and goes on after the occurrence; elsewhere it
copies one byte. -/
theorem ReplaceAll_equations (old new : GoString) (ho : old ≠ []) :
    ReplaceAll [] old new = []
    ∧ (∀ t, ReplaceAll (old ++ t) old new = new ++ ReplaceAll t old new)
    ∧ (∀ b t, ¬ old <+: b :: t → ReplaceAll (b :: t) old new = b :: ReplaceAll t old new) := by
  by_cases hon : old = new
  · subst hon
    simp [ReplaceAll]
  · refine ⟨by simp [ReplaceAll, hon, ho, replaceAux], ?_, ?_⟩
    · intro t
      simp only [ReplaceAll, hon, ho, if_false]
      cases old with
      | nil => exact absurd rfl ho
      | cons a old1 =>
        have hp : (a :: old1).isPrefixOf (a :: (old1 ++ t)) = true :=
          List.isPrefixOf_iff_prefix.2 ⟨t, rfl⟩
        have hstep : replaceAux (a :: old1) new 0 (a :: (old1 ++ t))
            = new ++ replaceAux (a :: old1) new ((a :: old1).length - 1) (old1 ++ t) := by
          rw [replaceAux, if_pos hp]
        rw [List.cons_append, hstep, replaceAux_drop]
        simp
    · intro b t hnp
      simp only [ReplaceAll, hon, ho, if_false]
      have hp : ¬ old.isPrefixOf (b :: t) = true := fun h => hnp (List.isPrefixOf_iff_prefix.1 h)
      rw [replaceAux, if_neg hp]

/-! ## C7: `replace` -/

/-- C7: the transform of a `replace` rule returns the string with every
non-overlapping occurrence of `old` replaced by `new`, unless that string is
empty: then it returns its input.  So it never returns the empty string for a
non-empty input; `replace(old = "foo", new = "")` on `"foo"`, where the
replaced string is empty, returns `"foo"`. -/
theorem replaceFn_spec (c : converter) (s : GoString) :
    (ReplaceAll s c.Old c.New = [] → replaceFn c s = some s)
    ∧ (ReplaceAll s c.Old c.New ≠ [] → replaceFn c s = some (ReplaceAll s c.Old c.New))
    ∧ (s ≠ [] → replaceFn c s ≠ some [])
    ∧ ReplaceAll (str "foo") (str "foo") (str "") = []
    ∧ replaceFn { Old := str "foo", New := str "" } (str "foo") = some (str "foo")
    ∧ replaceFn { Old := str "o", New := str "0" } (str "foo") = some (str "f00") := by
  refine ⟨?_, ?_, ?_, by decide, by decide, by decide⟩
  · intro h
    simp [replaceFn, h]
  · intro h
    simp [replaceFn, h]
  · intro hs h
    unfold replaceFn at h
    simp only at h
    split at h
    · exact hs (Option.some.inj h)
    · rename_i h1
      exact h1 (Option.some.inj h)

/-! ## C8: `left` -/

/-- C8: for a width `w >= 0` the transform of a `left` rule returns `s` itself
when `s` has at most `w` bytes and the first `w` bytes of `s` otherwise; the
result is a prefix of `s` of `min(len(s), w)` bytes. -/
theorem leftFn_spec (c : converter) (s : GoString) (hw : 0 ≤ c.Width) :
    ((s.length : Int) ≤ c.Width → leftFn c s = some s)
    ∧ (c.Width < (s.length : Int) → leftFn c s = some (s.take c.Width.toNat))
    ∧ ∃ r, leftFn c s = some r ∧ r <+: s ∧ r.length = min s.length c.Width.toNat := by
  have hle : (s.length : Int) ≤ c.Width → leftFn c s = some s := by
    intro h
    unfold leftFn sliceTo
    by_cases h1 : (s.length : Int) < c.Width
    · simp [h1]
    · have h2 : c.Width = (s.length : Int) := by omega
      simp [h2]
  have hgt : c.Width < (s.length : Int) → leftFn c s = some (s.take c.Width.toNat) := by
    intro h
    unfold leftFn sliceTo
    have h1 : ¬ (s.length : Int) < c.Width := by omega
    have h2 : c.Width ≤ (s.length : Int) := by omega
    simp [h1, h2, hw]
  refine ⟨hle, hgt, ?_⟩
  by_cases h : (s.length : Int) ≤ c.Width
  · refine ⟨s, hle h, List.prefix_refl _, ?_⟩
    have : s.length ≤ c.Width.toNat := by omega
    omega
  · have h1 : c.Width < (s.length : Int) := by omega
    refine ⟨_, hgt h1, List.take_prefix _ _, ?_⟩
    rw [List.length_take]
    omega

/-- C8 at width 3: `"hello"` gives `"hel"`, `"hi"` gives `"hi"`. -/
theorem leftFn_spec_witness :
    leftFn { Width := 3 } (str "hello") = some (str "hel")
    ∧ leftFn { Width := 3 } (str "hi") = some (str "hi") :=
  ⟨((leftFn_spec { Width := 3 } (str "hello") (by decide)).2.1 (by decide)).trans (by decide),
    (leftFn_spec { Width := 3 } (str "hi") (by decide)).1 (by decide)⟩

/-! ## C9: `base64decode` -/

set_option maxRecDepth 100000 in
theorem decodeMap_encodeChar_fin : ∀ v : Fin 64, decodeMap (encodeChar v.val) = v.val := by
  decide

theorem decodeMap_encodeChar (v : Nat) : decodeMap (encodeChar v) = v % 64 := by
  have h := decodeMap_encodeChar_fin ⟨v % 64, Nat.mod_lt _ (by decide)⟩
  simp only at h
  have h2 : encodeChar (v % 64) = encodeChar v := by
    simp [encodeChar]
  rw [h2] at h
  exact h

theorem decodeMap_encodeChar_ne (v : Nat) : decodeMap (encodeChar v) ≠ 0xFF := by
  rw [decodeMap_encodeChar]
  omega

theorem decodeAux_alpha0 (v : Nat) (rest : GoString) :
    decodeAux [] (encodeChar v :: rest) = decodeAux [v % 64] rest := by
  have h : ¬ v % 64 = 255 := by omega
  simp only [decodeAux, decodeMap_encodeChar, ne_eq, h, not_false_eq_true, if_true,
    List.nil_append]

theorem decodeAux_alpha1 (d0 v : Nat) (rest : GoString) :
    decodeAux [d0] (encodeChar v :: rest) = decodeAux [d0, v % 64] rest := by
  have h : ¬ v % 64 = 255 := by omega
  simp only [decodeAux, decodeMap_encodeChar, ne_eq, h, not_false_eq_true, if_true,
    List.singleton_append]

theorem decodeAux_alpha2 (d0 d1 v : Nat) (rest : GoString) :
    decodeAux [d0, d1] (encodeChar v :: rest) = decodeAux [d0, d1, v % 64] rest := by
  have h : ¬ v % 64 = 255 := by omega
  simp only [decodeAux, decodeMap_encodeChar, ne_eq, h, not_false_eq_true, if_true,
    List.cons_append, List.nil_append]

theorem decodeAux_alpha3 (d0 d1 d2 v : Nat) (rest : GoString) :
    decodeAux [d0, d1, d2] (encodeChar v :: rest)
      = (decodeAux [] rest).map (fun tl => quantumBytes d0 d1 d2 (v % 64) 4 ++ tl) := by
  have h : ¬ v % 64 = 255 := by omega
  simp only [decodeAux, decodeMap_encodeChar, ne_eq, h, not_false_eq_true, if_true]

theorem decodeAux_pad2 (d0 d1 : Nat) :
    decodeAux [d0, d1] [padChar, padChar] = some (quantumBytes d0 d1 0 0 2) := by
  have h1 : ¬ decodeMap padChar ≠ 0xFF := by decide
  have h2 : isNewline padChar = false := by decide
  simp [decodeAux, h1, h2, skipNewlines]

theorem decodeAux_pad1 (d0 d1 d2 : Nat) :
    decodeAux [d0, d1, d2] [padChar] = some (quantumBytes d0 d1 d2 0 3) := by
  have h1 : ¬ decodeMap padChar ≠ 0xFF := by decide
  have h2 : isNewline padChar = false := by decide
  simp [decodeAux, h1, h2, skipNewlines]

theorem quantumBytes_three (a b c : Byte) :
    quantumBytes ((a.val * 65536 + b.val * 256 + c.val) / 262144 % 64)
      ((a.val * 65536 + b.val * 256 + c.val) / 4096 % 64)
      ((a.val * 65536 + b.val * 256 + c.val) / 64 % 64)
      ((a.val * 65536 + b.val * 256 + c.val) % 64) 4 = [a, b, c] := by
  have ha := a.isLt
  have hb := b.isLt
  have hc := c.isLt
  simp only [quantumBytes, List.take_succ_cons, List.take_zero, List.cons.injEq, and_true,
    show (4 : Nat) - 1 = 3 from rfl]
  refine ⟨Fin.ext ?_, Fin.ext ?_, Fin.ext ?_⟩ <;> simp only [Fin.ofNat, Fin.val_mk] <;> omega

theorem quantumBytes_two (a b : Byte) :
    quantumBytes ((a.val * 65536 + b.val * 256) / 262144 % 64)
      ((a.val * 65536 + b.val * 256) / 4096 % 64)
      ((a.val * 65536 + b.val * 256) / 64 % 64) 0 3 = [a, b] := by
  have ha := a.isLt
  have hb := b.isLt
  simp only [quantumBytes, List.take_succ_cons, List.take_zero, List.cons.injEq, and_true,
    show (3 : Nat) - 1 = 2 from rfl]
  refine ⟨Fin.ext ?_, Fin.ext ?_⟩ <;> simp only [Fin.ofNat, Fin.val_mk] <;> omega

theorem quantumBytes_one (a : Byte) :
    quantumBytes ((a.val * 65536) / 262144 % 64) ((a.val * 65536) / 4096 % 64) 0 0 2 = [a] := by
  have ha := a.isLt
  simp only [quantumBytes, List.take_succ_cons, List.take_zero, List.cons.injEq, and_true,
    show (2 : Nat) - 1 = 1 from rfl]
  refine Fin.ext ?_
  simp only [Fin.ofNat, Fin.val_mk]
  omega

/-- Decoding undoes encoding: `DecodeString(EncodeToString(t))` is `t`, with no
error, for every byte sequence `t`. -/
theorem DecodeString_EncodeToString (t : GoString) :
    DecodeString (EncodeToString t) = some t := by
  unfold DecodeString
  induction t using EncodeToString.induct with
  | case1 a b c rest ih =>
    simp only [EncodeToString, decodeAux_alpha0, decodeAux_alpha1, decodeAux_alpha2,
      decodeAux_alpha3, ih, Option.map_some', quantumBytes_three]
    rfl
  | case2 a b =>
    simp only [EncodeToString, decodeAux_alpha0, decodeAux_alpha1, decodeAux_alpha2,
      decodeAux_pad1, quantumBytes_two]
  | case3 a =>
    simp only [EncodeToString, decodeAux_alpha0, decodeAux_alpha1,
      decodeAux_pad2, quantumBytes_one]
  | case4 => rfl

/-- C9: the transform of a `base64decode` rule returns the decoded bytes when
the standard padded decoding of `s` succeeds and the decoded bytes are valid
UTF-8, and `s` itself in every other case (the decoding fails, or the decoded
bytes are not valid UTF-8).  So it is a left inverse of the standard encoding
on valid UTF-8 text.  `"aGVsbG8="` gives `"hello"`; `"not-base64!"` and the
encoding of the invalid byte 0xFF stay as they are. -/
theorem base64decodeFn_spec :
    (∀ s d, DecodeString s = some d → Valid d = true → base64decodeFn s = some d)
    ∧ (∀ s d, DecodeString s = some d → Valid d = false → base64decodeFn s = some s)
    ∧ (∀ s, DecodeString s = none → base64decodeFn s = some s)
    ∧ (∀ t, DecodeString (EncodeToString t) = some t)
    ∧ (∀ t, Valid t = true → base64decodeFn (EncodeToString t) = some t)
    ∧ EncodeToString (str "hello") = str "aGVsbG8="
    ∧ base64decodeFn (str "aGVsbG8=") = some (str "hello")
    ∧ base64decodeFn (str "not-base64!") = some (str "not-base64!")
    ∧ DecodeString (str "/w==") = some [255]
    ∧ base64decodeFn (str "/w==") = some (str "/w==") := by
  refine ⟨?_, ?_, ?_, DecodeString_EncodeToString, ?_, by decide, by decide, by decide,
    by decide, by decide⟩
  · intro s d h hv
    simp [base64decodeFn, h, hv]
  · intro s d h hv
    simp [base64decodeFn, h, hv]
  · intro s h
    simp [base64decodeFn, h]
  · intro t hv
    simp [base64decodeFn, DecodeString_EncodeToString, hv]

/-! ## Runes of a string -/

theorem leadClass_size {b sz lo hi : Nat} (h : leadClass b = some (sz, lo, hi)) :
    2 ≤ sz ∧ sz ≤ 4 := by
  unfold leadClass at h
  split_ifs at h <;> simp only [Option.some.injEq, Prod.mk.injEq, reduceCtorEq] at h <;> omega

theorem decodeMulti_size (s0 : Nat) (rest : GoString) (sz lo hi : Nat) (h : 2 ≤ sz) :
    1 ≤ (decodeMulti s0 rest sz lo hi).2 ∧ (decodeMulti s0 rest sz lo hi).2 ≤ rest.length + 1 := by
  unfold decodeMulti
  simp only
  split_ifs <;> simp <;> omega

theorem decode_size (b : Byte) (rest : GoString) :
    1 ≤ (DecodeRuneInString (b :: rest)).2
      ∧ (DecodeRuneInString (b :: rest)).2 ≤ rest.length + 1 := by
  simp only [DecodeRuneInString]
  split_ifs with h0
  · simp
  · cases hl : leadClass b.val with
    | none => simp
    | some t =>
      obtain ⟨sz, lo, hi⟩ := t
      exact decodeMulti_size _ _ _ _ _ (leadClass_size hl).1

theorem getD_take {m i : Nat} (l : GoString) (h : i < m) :
    (l.take m).getD i 0 = l.getD i 0 := by
  simp [List.getD_eq_getElem?_getD, List.getElem?_take, h]

theorem decodeMulti_take (s0 : Nat) (rest : GoString) (sz lo hi m1 : Nat)
    (hsz : 2 ≤ sz ∧ sz ≤ 4) (h2 : (decodeMulti s0 rest sz lo hi).2 ≤ m1 + 1) :
    decodeMulti s0 (rest.take m1) sz lo hi = decodeMulti s0 rest sz lo hi := by
  have hlen : (rest.take m1).length = min m1 rest.length := List.length_take _ _
  have e0 : 1 ≤ m1 → (rest.take m1).getD 0 0 = rest.getD 0 0 := fun h => getD_take rest h
  have e1 : 2 ≤ m1 → (rest.take m1).getD 1 0 = rest.getD 1 0 := fun h => getD_take rest h
  have e2 : 3 ≤ m1 → (rest.take m1).getD 2 0 = rest.getD 2 0 := fun h => getD_take rest h
  unfold decodeMulti at h2 ⊢
  simp only [hlen] at h2 ⊢
  generalize (rest.take m1).getD 0 0 = a0 at e0 ⊢
  generalize (rest.take m1).getD 1 0 = a1 at e1 ⊢
  generalize (rest.take m1).getD 2 0 = a2 at e2 ⊢
  generalize rest.getD 0 0 = b0 at e0 h2 ⊢
  generalize rest.getD 1 0 = b1 at e1 h2 ⊢
  generalize rest.getD 2 0 = b2 at e2 h2 ⊢
  generalize rest.length = L at h2 ⊢
  by_cases hS : L + 1 < sz
  · have hS1 : min m1 L + 1 < sz := by omega
    rw [if_pos hS, if_pos hS1]
  · rw [if_neg hS] at h2 ⊢
    by_cases hS1 : min m1 L + 1 < sz
    · rw [if_pos hS1]
      split_ifs at h2 ⊢ <;> (try simp only at h2) <;> first | rfl | omega
    · rw [if_neg hS1]
      have c0 : 1 ≤ m1 := by omega
      have := e0 c0
      subst this
      by_cases hR : a0.val < lo ∨ hi < a0.val
      · rw [if_pos hR, if_pos hR]
      · rw [if_neg hR, if_neg hR]
        by_cases h2s : sz ≤ 2
        · rw [if_pos h2s, if_pos h2s]
        · rw [if_neg h2s, if_neg h2s]
          have c1 : 2 ≤ m1 := by omega
          have := e1 c1
          subst this
          by_cases hC : isCont a1.val = false
          · rw [if_pos hC, if_pos hC]
          · rw [if_neg hC, if_neg hC]
            by_cases h3s : sz ≤ 3
            · rw [if_pos h3s, if_pos h3s]
            · rw [if_neg h3s, if_neg h3s]
              have c2 : 3 ≤ m1 := by omega
              have := e2 c2
              subst this
              rfl

theorem decode_take (s : GoString) (m : Nat) (h1 : 1 ≤ m)
    (h2 : (DecodeRuneInString s).2 ≤ m) :
    DecodeRuneInString (s.take m) = DecodeRuneInString s := by
  cases s with
  | nil => simp
  | cons b rest =>
    obtain ⟨m1, rfl⟩ : ∃ m1, m = m1 + 1 := ⟨m - 1, by omega⟩
    simp only [List.take_succ_cons, DecodeRuneInString] at h2 ⊢
    split_ifs with h0
    · rfl
    · rw [if_neg h0] at h2
      cases hl : leadClass b.val with
      | none => rfl
      | some t =>
        obtain ⟨sz, lo, hi⟩ := t
        simp only [hl] at h2 ⊢
        exact decodeMulti_take _ _ _ _ _ _ (leadClass_size hl) h2

theorem runesAux_nil (k : Nat) : runesAux k [] = [] := by
  cases k <;> rfl

theorem runesAux_drop : ∀ (s : GoString) (k : Nat), runesAux k s = runesAux 0 (s.drop k) := by
  intro s
  induction s with
  | nil => intro k; simp [runesAux_nil]
  | cons b rest ih =>
    intro k
    cases k with
    | zero => rfl
    | succ k => simp only [runesAux, List.drop_succ_cons]; exact ih k

theorem runes_nil : runes [] = [] := rfl

/-- The first step of `range s`: the first rune with its bytes, then the runes
of the rest of the string. -/
theorem runes_cons (b : Byte) (rest : GoString) :
    runes (b :: rest)
      = ⟨(DecodeRuneInString (b :: rest)).1, (b :: rest).take (DecodeRuneInString (b :: rest)).2⟩
        :: runes ((b :: rest).drop (DecodeRuneInString (b :: rest)).2) := by
  have hd := decode_size b rest
  obtain ⟨n, hn⟩ : ∃ n, (DecodeRuneInString (b :: rest)).2 = n + 1 :=
    ⟨(DecodeRuneInString (b :: rest)).2 - 1, by omega⟩
  simp only [runes, runesAux]
  rw [runesAux_drop rest, hn]
  simp

theorem runes_eq_nil_iff (s : GoString) : runes s = [] ↔ s = [] := by
  cases s with
  | nil => simp [runes_nil]
  | cons b rest => simp [runes_cons]

theorem joinSegs_nil : joinSegs [] = [] := rfl

theorem joinSegs_cons (g : Seg) (l : List Seg) : joinSegs (g :: l) = g.bytes ++ joinSegs l := by
  simp [joinSegs]

theorem joinSegs_append (l1 l2 : List Seg) :
    joinSegs (l1 ++ l2) = joinSegs l1 ++ joinSegs l2 := by
  simp [joinSegs]

/-- The bytes of the runes of a string are the string. -/
theorem joinSegs_runes : ∀ (n : Nat) (s : GoString), s.length ≤ n → joinSegs (runes s) = s := by
  intro n
  induction n with
  | zero =>
    intro s h
    have : s = [] := List.length_eq_zero.1 (by omega)
    subst this
    rfl
  | succ n ih =>
    intro s h
    cases s with
    | nil => rfl
    | cons b rest =>
      have hd := decode_size b rest
      rw [runes_cons, joinSegs_cons]
      simp only
      rw [ih _ (by simp only [List.length_drop, List.length_cons] at h ⊢; omega)]
      exact List.take_append_drop _ _

theorem joinSegs_runes_eq (s : GoString) : joinSegs (runes s) = s :=
  joinSegs_runes s.length s (Nat.le_refl _)

/-- The runes of a string from a rune boundary on are the runes of that
suffix. -/
theorem runes_suffix : ∀ (l1 l2 : List Seg) (s : GoString),
    runes s = l1 ++ l2 → runes (joinSegs l2) = l2 := by
  intro l1
  induction l1 with
  | nil =>
    intro l2 s h
    simp only [List.nil_append] at h
    rw [← h, joinSegs_runes_eq]
  | cons g l1 ih =>
    intro l2 s h
    cases s with
    | nil => simp [runes_nil] at h
    | cons b rest =>
      rw [runes_cons] at h
      simp only [List.cons_append, List.cons.injEq] at h
      exact ih l2 _ h.2

theorem runes_append_of_decode (t p q : GoString) (ht : t ≠ [])
    (h : (DecodeRuneInString (t ++ p ++ q)).2 = t.length) :
    runes (t ++ p) = ⟨(DecodeRuneInString (t ++ p ++ q)).1, t⟩ :: runes p := by
  have hpos : 1 ≤ t.length := by
    cases t with
    | nil => exact absurd rfl ht
    | cons _ _ => simp
  have hdec : DecodeRuneInString (t ++ p) = DecodeRuneInString (t ++ p ++ q) := by
    have h1 := decode_take (t ++ p ++ q) (t ++ p).length
      (by rw [List.length_append]; omega) (by rw [h, List.length_append]; omega)
    rwa [List.take_left] at h1
  cases t with
  | nil => exact absurd rfl ht
  | cons b t1 =>
    have hc : (b :: t1) ++ p = b :: (t1 ++ p) := rfl
    rw [hc, runes_cons, ← hc, hdec, h]
    rw [List.take_left, List.drop_left]

/-- The runes of a string up to a rune boundary are the runes of that
prefix. -/
theorem runes_prefix : ∀ (l1 l2 : List Seg) (s : GoString),
    runes s = l1 ++ l2 → runes (joinSegs l1) = l1 := by
  intro l1
  induction l1 with
  | nil => intro l2 s _; rfl
  | cons g l1 ih =>
    intro l2 s h
    cases s with
    | nil => simp [runes_nil] at h
    | cons b rest =>
      have hd := decode_size b rest
      rw [runes_cons] at h
      simp only [List.cons_append, List.cons.injEq] at h
      obtain ⟨hg, hrest⟩ := h
      have ih1 := ih l2 _ hrest
      have hj : joinSegs (l1 ++ l2) = (b :: rest).drop (DecodeRuneInString (b :: rest)).2 := by
        rw [← hrest, joinSegs_runes_eq]
      rw [joinSegs_append] at hj
      have hlen : ((b :: rest).take (DecodeRuneInString (b :: rest)).2).length
          = (DecodeRuneInString (b :: rest)).2 := by
        rw [List.length_take]; simp only [List.length_cons]; omega
      have hne : (b :: rest).take (DecodeRuneInString (b :: rest)).2 ≠ [] := by
        intro h0
        rw [h0] at hlen
        simp only [List.length_nil] at hlen
        omega
      have hs : (b :: rest).take (DecodeRuneInString (b :: rest)).2
            ++ joinSegs l1 ++ joinSegs l2 = b :: rest := by
        rw [List.append_assoc, hj]; exact List.take_append_drop _ _
      have key := runes_append_of_decode _ (joinSegs l1) (joinSegs l2) hne
        (by rw [hs]; exact hlen.symm)
      rw [hs, ih1] at key
      rw [joinSegs_cons, ← hg]
      simp only
      rw [key]

theorem dropWhile_rdropWhile {α : Type} (p : α → Bool) (l : List α) :
    (l.rdropWhile p).dropWhile p = (l.dropWhile p).rdropWhile p := by
  induction l using List.reverseRecOn with
  | nil => simp
  | append_singleton l a ih =>
    by_cases ha : p a = true
    · rw [List.rdropWhile_concat_pos _ _ _ ha, ih, List.dropWhile_append]
      split
      · rename_i he
        have : l.dropWhile p = [] := List.isEmpty_iff.1 he
        simp [this, ha]
      · rw [List.rdropWhile_concat_pos _ _ _ ha]
    · rw [List.rdropWhile_concat_neg _ _ _ ha, List.dropWhile_append]
      split
      · simp [ha]
        exact (List.rdropWhile_concat_neg p [] a ha).symm
      · rw [List.rdropWhile_concat_neg _ _ _ ha]

/-! ## C10: `trim`, `trim_left`, `trim_right` -/

theorem runes_joinSegs_dropWhile (p : Seg → Bool) (s : GoString) :
    runes (joinSegs ((runes s).dropWhile p)) = (runes s).dropWhile p := by
  obtain ⟨t, ht⟩ := List.dropWhile_suffix p (l := runes s)
  exact runes_suffix t _ s ht.symm

theorem runes_joinSegs_rdropWhile (p : Seg → Bool) (s : GoString) :
    runes (joinSegs ((runes s).rdropWhile p)) = (runes s).rdropWhile p := by
  obtain ⟨t, ht⟩ := List.rdropWhile_prefix p (l := runes s)
  exact runes_prefix _ t s ht.symm

theorem TrimLeftFunc_eq (s : GoString) (f : Nat → Bool) :
    TrimLeftFunc s f = joinSegs ((runes s).dropWhile (fun g => f g.rune)) := rfl

theorem TrimRightFunc_eq (s : GoString) (f : Nat → Bool) :
    TrimRightFunc s f = joinSegs ((runes s).rdropWhile (fun g => f g.rune)) := rfl

theorem TrimFunc_eq (s : GoString) (f : Nat → Bool) :
    TrimFunc s f
      = joinSegs (((runes s).dropWhile (fun g => f g.rune)).rdropWhile (fun g => f g.rune)) := by
  unfold TrimFunc
  rw [TrimRightFunc_eq, TrimLeftFunc_eq, runes_joinSegs_dropWhile]

theorem TrimLeft_eq (s cutset : GoString) (hc : cutset ≠ []) :
    TrimLeft s cutset
      = joinSegs ((runes s).dropWhile (fun g => ContainsRune cutset g.rune)) := by
  unfold TrimLeft
  by_cases hs : s = []
  · subst hs; simp [runes_nil, joinSegs_nil]
  · simp [hs, hc]

theorem TrimRight_eq (s cutset : GoString) (hc : cutset ≠ []) :
    TrimRight s cutset
      = joinSegs ((runes s).rdropWhile (fun g => ContainsRune cutset g.rune)) := by
  unfold TrimRight
  by_cases hs : s = []
  · subst hs; simp [runes_nil, joinSegs_nil]
  · simp [hs, hc]

theorem Trim_eq (s cutset : GoString) (hc : cutset ≠ []) :
    Trim s cutset
      = joinSegs (((runes s).dropWhile (fun g => ContainsRune cutset g.rune)).rdropWhile
          (fun g => ContainsRune cutset g.rune)) := by
  unfold Trim
  by_cases hs : s = []
  · subst hs; simp [runes_nil, joinSegs_nil]
  · simp only [hs, hc, or_self, if_false]
    rw [TrimRight_eq _ _ hc, TrimLeft_eq _ _ hc, runes_joinSegs_rdropWhile,
      dropWhile_rdropWhile]

theorem TrimRight_TrimLeft (s cutset : GoString) (hc : cutset ≠ []) :
    TrimRight (TrimLeft s cutset) cutset = Trim s cutset := by
  rw [Trim_eq _ _ hc, TrimLeft_eq _ _ hc, TrimRight_eq _ _ hc, runes_joinSegs_dropWhile]

theorem head_dropWhile_not {α : Type} (p : α → Bool) :
    ∀ (l : List α) (a : α), (l.dropWhile p).head? = some a → p a = false := by
  intro l
  induction l with
  | nil => intro a h; simp at h
  | cons x l ih =>
    intro a h
    by_cases hx : p x = true
    · rw [List.dropWhile_cons_of_pos hx] at h
      exact ih a h
    · rw [List.dropWhile_cons_of_neg hx] at h
      simp only [List.head?_cons, Option.some.injEq] at h
      subst h
      simpa using hx

theorem getLast_rdropWhile_not {α : Type} (p : α → Bool) (l : List α) (a : α)
    (h : (l.rdropWhile p).getLast? = some a) : p a = false := by
  have hne : l.rdropWhile p ≠ [] := by
    intro h0
    rw [h0] at h
    simp at h
  have h1 := List.rdropWhile_last_not p l hne
  rw [List.getLast?_eq_getLast _ hne] at h
  simp only [Option.some.injEq] at h
  rw [h] at h1
  simpa using h1

theorem rdropWhile_append_rtakeWhile {α : Type} (p : α → Bool) (l : List α) :
    l.rdropWhile p ++ l.rtakeWhile p = l := by
  have h := List.takeWhile_append_dropWhile p l.reverse
  have h2 := congrArg List.reverse h
  rw [List.reverse_append, List.reverse_reverse] at h2
  exact h2

theorem mem_rtakeWhile {α : Type} (p : α → Bool) (l : List α) (a : α)
    (h : a ∈ l.rtakeWhile p) : p a = true := by
  simp only [List.rtakeWhile, List.mem_reverse] at h
  exact List.mem_takeWhile_imp h

/-- C10: let the strip characters of a rule be the runes of its cutset when
one is configured and the Unicode white space otherwise.  Over the runes of
`s` (whose bytes are `s`), `trim_left` removes the maximal leading run of strip
characters, `trim_right` the maximal trailing run and `trim` both; `trim` is
`trim_right` after `trim_left`.  With no cutset `"  pad  "` gives `"pad"`; with
the cutset `"x"`, `"xxpadxx"` gives `"pad"`. -/
theorem trim_spec (c : converter) (s : GoString) :
    joinSegs (runes s) = s
    ∧ trimLeftFn c s = some (joinSegs ((runes s).dropWhile c.strips))
    ∧ trimRightFn c s = some (joinSegs ((runes s).rdropWhile c.strips))
    ∧ trimFn c s = some (joinSegs (((runes s).dropWhile c.strips).rdropWhile c.strips))
    ∧ trimFn c s = (trimLeftFn c s).bind (trimRightFn c)
    ∧ (∃ pre rest, runes s = pre ++ rest ∧ (∀ g ∈ pre, c.strips g = true)
        ∧ (∀ g, rest.head? = some g → c.strips g = false)
        ∧ trimLeftFn c s = some (joinSegs rest))
    ∧ (∃ rest suf, runes s = rest ++ suf ∧ (∀ g ∈ suf, c.strips g = true)
        ∧ (∀ g, rest.getLast? = some g → c.strips g = false)
        ∧ trimRightFn c s = some (joinSegs rest))
    ∧ (∃ pre mid suf, runes s = pre ++ mid ++ suf ∧ (∀ g ∈ pre, c.strips g = true)
        ∧ (∀ g ∈ suf, c.strips g = true)
        ∧ (∀ g, mid.head? = some g → c.strips g = false)
        ∧ (∀ g, mid.getLast? = some g → c.strips g = false)
        ∧ trimFn c s = some (joinSegs mid))
    ∧ trimFn { } (str "  pad  ") = some (str "pad")
    ∧ trimFn { Cutset := str "x" } (str "xxpadxx") = some (str "pad")
    ∧ trimLeftFn { Cutset := str "x" } (str "xxpadxx") = some (str "padxx")
    ∧ trimRightFn { Cutset := str "x" } (str "xxpadxx") = some (str "xxpad") := by
  have hL : trimLeftFn c s = some (joinSegs ((runes s).dropWhile c.strips)) := by
    unfold trimLeftFn
    by_cases hc : c.Cutset = []
    · simp only [hc, ne_eq, not_true_eq_false, if_false, TrimLeftFunc_eq]
      congr 3
      funext g
      simp [converter.strips, converter.stripRune, hc]
    · simp only [hc, ne_eq, not_false_eq_true, if_true, TrimLeft_eq _ _ hc]
      congr 3
      funext g
      simp [converter.strips, converter.stripRune, hc]
  have hR : trimRightFn c s = some (joinSegs ((runes s).rdropWhile c.strips)) := by
    unfold trimRightFn
    by_cases hc : c.Cutset = []
    · simp only [hc, ne_eq, not_true_eq_false, if_false, TrimRightFunc_eq]
      congr 3
      funext g
      simp [converter.strips, converter.stripRune, hc]
    · simp only [hc, ne_eq, not_false_eq_true, if_true, TrimRight_eq _ _ hc]
      congr 3
      funext g
      simp [converter.strips, converter.stripRune, hc]
  have hstr : (fun g : Seg => c.strips g) = c.strips := rfl
  have hT : trimFn c s
      = some (joinSegs (((runes s).dropWhile c.strips).rdropWhile c.strips)) := by
    unfold trimFn
    by_cases hc : c.Cutset = []
    · simp only [hc, ne_eq, not_true_eq_false, if_false, TrimFunc_eq]
      have : (fun g : Seg => IsSpace g.rune) = c.strips := by
        funext g
        simp [converter.strips, converter.stripRune, hc]
      rw [this]
    · simp only [hc, ne_eq, not_false_eq_true, if_true, Trim_eq _ _ hc]
      have : (fun g : Seg => ContainsRune c.Cutset g.rune) = c.strips := by
        funext g
        simp [converter.strips, converter.stripRune, hc]
      rw [this]
  have hRL : ∀ x, trimRightFn c x = some (joinSegs ((runes x).rdropWhile c.strips)) := by
    intro x
    unfold trimRightFn
    by_cases hc : c.Cutset = []
    · simp only [hc, ne_eq, not_true_eq_false, if_false, TrimRightFunc_eq]
      congr 3
      funext g
      simp [converter.strips, converter.stripRune, hc]
    · simp only [hc, ne_eq, not_false_eq_true, if_true, TrimRight_eq _ _ hc]
      congr 3
      funext g
      simp [converter.strips, converter.stripRune, hc]
  refine ⟨joinSegs_runes_eq s, hL, hR, hT, ?_, ?_, ?_, ?_, by decide, by decide, by decide,
    by decide⟩
  · rw [hL, Option.some_bind, hRL, runes_joinSegs_dropWhile, hT]
  · exact ⟨(runes s).takeWhile c.strips, (runes s).dropWhile c.strips,
      (List.takeWhile_append_dropWhile _ _).symm, fun g hg => List.mem_takeWhile_imp hg,
      head_dropWhile_not _ _, hL⟩
  · exact ⟨(runes s).rdropWhile c.strips, (runes s).rtakeWhile c.strips,
      (rdropWhile_append_rtakeWhile _ _).symm, fun g hg => mem_rtakeWhile _ _ _ hg,
      getLast_rdropWhile_not _ _, hR⟩
  · refine ⟨(runes s).takeWhile c.strips,
      ((runes s).dropWhile c.strips).rdropWhile c.strips,
      ((runes s).dropWhile c.strips).rtakeWhile c.strips, ?_,
      fun g hg => List.mem_takeWhile_imp hg, fun g hg => mem_rtakeWhile _ _ _ hg, ?_,
      getLast_rdropWhile_not _ _, hT⟩
    · rw [List.append_assoc, rdropWhile_append_rtakeWhile, List.takeWhile_append_dropWhile]
    · rw [← dropWhile_rdropWhile]
      exact head_dropWhile_not _ _

/-! ## The value passes on the association list -/

section value
variable {β : Type}

theorem kvGet_kvSet (a k : GoString) (v : β) :
    ∀ l : List (GoString × β), kvGet a (kvSet k v l) = if a = k then some v else kvGet a l := by
  intro l
  induction l with
  | nil =>
    by_cases h : a = k
    · simp [kvSet, kvGet, h]
    · have h2 : ¬ k = a := fun h3 => h h3.symm
      simp [kvSet, kvGet, h, h2]
  | cons e rest ih =>
    obtain ⟨k1, v1⟩ := e
    by_cases h1 : k1 = k
    · subst h1
      by_cases h : a = k1
      · subst h
        simp [kvSet, kvGet]
      · have h2 : ¬ k1 = a := fun h3 => h h3.symm
        simp [kvSet, kvGet, h, h2]
    · simp only [kvSet, h1, if_false, kvGet, ih]
      by_cases h : k1 = a
      · subst h
        simp [h1]
      · simp [h]

theorem kvGet_kvErase (a k : GoString) :
    ∀ l : List (GoString × β), (keys l).Nodup →
      kvGet a (kvErase k l) = if a = k then none else kvGet a l := by
  intro l hnd
  by_cases h : a = k
  · subst h
    simp only [if_true]
    exact (kvGet_eq_none_iff _ _).2 (not_mem_keys_kvErase a hnd)
  · simp only [h, if_false]
    clear hnd
    induction l with
    | nil => rfl
    | cons e rest ih =>
      obtain ⟨k1, v1⟩ := e
      by_cases h1 : k1 = k
      · subst h1
        have h2 : ¬ k1 = a := fun h3 => h h3.symm
        simp [kvErase, kvGet, h2]
      · simp only [kvErase, h1, if_false, kvGet, ih]

theorem kvGet_map (a : GoString) (h : β → β) :
    ∀ l : List (GoString × β),
      kvGet a (l.map (fun e => (e.1, h e.2))) = (kvGet a l).map h := by
  intro l
  induction l with
  | nil => rfl
  | cons e rest ih =>
    obtain ⟨k1, v1⟩ := e
    by_cases h1 : k1 = a
    · simp [kvGet, h1]
    · simp only [List.map_cons, kvGet, h1, if_false, ih]

theorem keys_map_value (h : β → β) (l : List (GoString × β)) :
    keys (l.map (fun e => (e.1, h e.2))) = keys l := by
  simp [keys, List.map_map, Function.comp_def]

/-- Two association lists with the same keys in the same order, the keys
unique, and the same value under every key are equal. -/
theorem kv_ext : ∀ (l1 l2 : List (GoString × β)), keys l1 = keys l2 → (keys l1).Nodup →
    (∀ a ∈ keys l1, kvGet a l1 = kvGet a l2) → l1 = l2 := by
  intro l1
  induction l1 with
  | nil =>
    intro l2 hk _ _
    cases l2 with
    | nil => rfl
    | cons e _ => simp [keys] at hk
  | cons e rest ih =>
    intro l2 hk hnd hget
    obtain ⟨k1, v1⟩ := e
    cases l2 with
    | nil => simp [keys] at hk
    | cons e2 rest2 =>
      obtain ⟨k2, v2⟩ := e2
      simp only [keys_cons, List.cons.injEq] at hk
      obtain ⟨hk1, hk2⟩ := hk
      subst hk1
      simp only [keys_cons, List.nodup_cons] at hnd
      have hv := hget k1 (by simp [keys_cons])
      simp only [kvGet, if_true, Option.some.injEq] at hv
      subst hv
      have : rest = rest2 := by
        apply ih rest2 hk2 hnd.2
        intro a ha
        have h1 := hget a (by simp [keys_cons, ha])
        have hne : ¬ k1 = a := by
          intro h2
          subst h2
          exact hnd.1 ha
        simpa [kvGet, hne] using h1
      rw [this]

theorem keys_valueLoop_id (g : β → Option β) :
    ∀ (order live : List (GoString × β)), (∀ k ∈ keys order, k ∈ keys live) →
      keys (valueLoop g id order live) = keys live := by
  intro order
  induction order with
  | nil => intro live _; rfl
  | cons e rest ih =>
    intro live h
    obtain ⟨k, v⟩ := e
    have hk : k ∈ keys live := h k (by simp [keys_cons])
    have hrest : ∀ k1 ∈ keys rest, k1 ∈ keys live := fun k1 h1 => h k1 (by simp [keys_cons, h1])
    simp only [valueLoop]
    cases g v with
    | none => exact ih live hrest
    | some w =>
      simp only [id]
      rw [ih _ (by rw [keys_kvSet_of_mem k w live hk]; exact hrest),
        keys_kvSet_of_mem k w live hk]

theorem kvGet_valueLoop_id (g : β → Option β) (a : GoString) :
    ∀ (order live : List (GoString × β)), (keys order).Nodup →
      kvGet a (valueLoop g id order live)
        = match kvGet a order with
          | some v => (match g v with
            | some w => some w
            | none => kvGet a live)
          | none => kvGet a live := by
  intro order
  induction order with
  | nil => intro live _; rfl
  | cons e rest ih =>
    intro live hnd
    obtain ⟨k, v⟩ := e
    simp only [keys_cons, List.nodup_cons] at hnd
    simp only [valueLoop]
    by_cases hka : k = a
    · subst hka
      have hnone : kvGet k rest = none := (kvGet_eq_none_iff _ _).2 hnd.1
      simp only [kvGet, if_true]
      cases hg : g v with
      | none => simp only [ih live hnd.2, hnone]
      | some w => simp only [ih _ hnd.2, hnone, id, kvGet_kvSet, if_true]
    · have hak : ¬ a = k := fun h => hka h.symm
      simp only [kvGet, hka, if_false]
      cases hg : g v with
      | none => exact ih live hnd.2
      | some w =>
        rw [ih _ hnd.2]
        simp only [id, kvGet_kvSet, hak, if_false]

/-- A value pass over all entries, in any order, with the values written back
under their own keys: every entry keeps its key and its place, and holds the
written value, or its old value when it was skipped. -/
theorem valueLoop_id_eq_map (g : β → Option β) (l order : List (GoString × β))
    (hnd : (keys l).Nodup) (hord : order.Perm l) :
    valueLoop g id order l = l.map (fun e => (e.1, (g e.2).getD e.2)) := by
  have hndo : (keys order).Nodup := (keys_perm hord).nodup_iff.2 hnd
  have hk : keys (valueLoop g id order l) = keys l :=
    keys_valueLoop_id g order l (fun k hk => (keys_perm hord).subset hk)
  apply kv_ext _ _ (by rw [hk]; exact (keys_map_value (fun v => (g v).getD v) l).symm)
    (by rw [hk]; exact hnd)
  intro a _
  rw [kvGet_valueLoop_id g a order l hndo, kvGet_perm hord hndo a]
  have hm := kvGet_map a (fun v => (g v).getD v) l
  simp only at hm
  rw [hm]
  cases hl : kvGet a l with
  | none => rfl
  | some v => cases hg : g v <;> simp [hg]

end value

theorem call_of_computes (c : converter) (f : GoString → GoString) (hc : c.Computes f)
    (x : GoString) : c.call x = some (f x) := by
  unfold converter.Computes at hc
  simp [converter.call, hc]

theorem convertFieldLoop_computes (c : converter) (f : GoString → GoString)
    (hc : c.Computes f) :
    ∀ (l : List (GoString × FieldValue)) (m : Metric),
      c.convertFieldLoop l m
        = some { m with fields := valueLoop (fieldConv f) (destKey c.Field c.Dest) l m.fields } := by
  intro l
  induction l with
  | nil => intro m; rfl
  | cons e rest ih =>
    intro m
    obtain ⟨k, v⟩ := e
    cases v with
    | str s =>
      simp only [converter.convertFieldLoop, call_of_computes c f hc, valueLoop, fieldConv]
      rw [ih]
      rfl
    | int i => simp only [converter.convertFieldLoop, valueLoop, fieldConv]; exact ih m
    | uint u => simp only [converter.convertFieldLoop, valueLoop, fieldConv]; exact ih m
    | float b => simp only [converter.convertFieldLoop, valueLoop, fieldConv]; exact ih m
    | bool b => simp only [converter.convertFieldLoop, valueLoop, fieldConv]; exact ih m

theorem convertTagLoop_computes (c : converter) (f : GoString → GoString)
    (hc : c.Computes f) :
    ∀ (l : List (GoString × GoString)) (m : Metric),
      c.convertTagLoop l m
        = some { m with tags := valueLoop (fun v => some (f v)) (destKey c.Tag c.Dest) l m.tags } := by
  intro l
  induction l with
  | nil => intro m; rfl
  | cons e rest ih =>
    intro m
    obtain ⟨k, v⟩ := e
    simp only [converter.convertTagLoop, call_of_computes c f hc, valueLoop]
    rw [ih]
    rfl

theorem destKey_star (dest : GoString) : destKey star dest = id := by
  funext k
  simp [destKey]

theorem fieldConv_getD (f : GoString → GoString) (v : FieldValue) :
    (fieldConv f v).getD v = convValue f v := by
  cases v <;> rfl

/-! ## C13, C14, C15, C20: the passes of a rule -/

/-- C13: a pass whose selector is an exact name that the metric does not have
(as a field for `field` and `field_key`, as a tag for `tag` and `tag_key`)
returns the metric unchanged, whatever the transform and the dest are. -/
theorem absent_selector_unchanged (c : converter) (m : Metric)
    (ordF ordFK : List (GoString × FieldValue) → List (GoString × FieldValue))
    (ordT ordTK : List (GoString × GoString) → List (GoString × GoString)) :
    (c.Field ≠ star → c.Field ∉ keys m.fields → c.convertField ordF m = some m)
    ∧ (c.FieldKey ≠ star → c.FieldKey ∉ keys m.fields → c.convertFieldKey ordFK m = some m)
    ∧ (c.Tag ≠ star → c.Tag ∉ keys m.tags → c.convertTag ordT m = some m)
    ∧ (c.TagKey ≠ star → c.TagKey ∉ keys m.tags → c.convertTagKey ordTK m = some m) := by
  refine ⟨?_, ?_, ?_, ?_⟩
  · intro hs hk
    have : m.GetField c.Field = none := (kvGet_eq_none_iff _ _).2 hk
    simp [converter.convertField, hs, this]
  · intro hs hk
    have : m.GetField c.FieldKey = none := (kvGet_eq_none_iff _ _).2 hk
    simp [converter.convertFieldKey, hs, this]
  · intro hs hk
    have : m.GetTag c.Tag = none := (kvGet_eq_none_iff _ _).2 hk
    simp [converter.convertTag, hs, this]
  · intro hs hk
    have : m.GetTag c.TagKey = none := (kvGet_eq_none_iff _ _).2 hk
    simp [converter.convertTagKey, hs, this]

/-- C13 at the metric `cpu` (tag `host`, fields `state`, `load`) and a rule
that selects the field `unit` and the tag `zone`, which it does not have. -/
theorem absent_selector_unchanged_witness :
    absentRule.convertField id cpuMetric = some cpuMetric
    ∧ absentRule.convertTagKey id cpuMetric = some cpuMetric :=
  ⟨(absent_selector_unchanged absentRule cpuMetric id id id id).1 (by decide) (by decide),
    (absent_selector_unchanged absentRule cpuMetric id id id id).2.2.2 (by decide)
      (by decide)⟩

/-- C14: the measurement pass of a rule with the total transform `f`.  When
the selector is `*` or the name of the metric, the name becomes `f name`;
otherwise the metric is unchanged.  Tags and fields are unchanged in both
cases. -/
theorem convertMeasurement_spec (c : converter) (f : GoString → GoString)
    (hc : c.Computes f) (m : Metric) :
    ((c.Measurement = star ∨ c.Measurement = m.Name) →
        c.convertMeasurement m = some ⟨f m.Name, m.tags, m.fields⟩)
    ∧ (¬ (c.Measurement = star ∨ c.Measurement = m.Name) → c.convertMeasurement m = some m)
    ∧ (∃ m1, c.convertMeasurement m = some m1 ∧ m1.tags = m.tags ∧ m1.fields = m.fields) := by
  have h1 : (c.Measurement = star ∨ c.Measurement = m.Name) →
      c.convertMeasurement m = some ⟨f m.Name, m.tags, m.fields⟩ := by
    intro h
    have hn : ¬ (m.Name ≠ c.Measurement ∧ c.Measurement ≠ star) := by
      rintro ⟨ha, hb⟩
      rcases h with h | h
      · exact hb h
      · exact ha h.symm
    simp only [converter.convertMeasurement, hn, if_false, call_of_computes c f hc]
    rfl
  have h2 : ¬ (c.Measurement = star ∨ c.Measurement = m.Name) →
      c.convertMeasurement m = some m := by
    intro h
    have hn : m.Name ≠ c.Measurement ∧ c.Measurement ≠ star :=
      ⟨fun ha => h (Or.inr ha.symm), fun hb => h (Or.inl hb)⟩
    rw [converter.convertMeasurement, if_pos hn]
  refine ⟨h1, h2, ?_⟩
  by_cases h : c.Measurement = star ∨ c.Measurement = m.Name
  · exact ⟨_, h1 h, rfl, rfl⟩
  · exact ⟨_, h2 h, rfl, rfl⟩

/-- C14 at the metric `cpu`: the rule on the measurement `cpu` renames it to
`CPU`; on the metric `mem` it changes nothing. -/
theorem convertMeasurement_spec_witness :
    upperNameRule.convertMeasurement cpuMetric
        = some ⟨str "CPU", cpuMetric.tags, cpuMetric.fields⟩
    ∧ upperNameRule.convertMeasurement memMetric = some memMetric :=
  ⟨(convertMeasurement_spec upperNameRule asciiUpper rfl cpuMetric).1 (by decide),
    (convertMeasurement_spec upperNameRule asciiUpper rfl memMetric).2.1 (by decide)⟩

theorem runPasses_append (l1 l2 : List (Metric → Option Metric)) (m : Metric) :
    runPasses (l1 ++ l2) m = (runPasses l1 m).bind (runPasses l2) := by
  induction l1 generalizing m with
  | nil => rfl
  | cons p rest ih =>
    simp only [List.cons_append, runPasses]
    cases p m with
    | none => rfl
    | some m1 => exact ih m1

theorem runPasses_optional (b : Prop) [Decidable b] (p : Metric → Option Metric) (m : Metric) :
    runPasses (if b then [p] else []) m = if b then p m else some m := by
  by_cases h : b
  · simp only [h, if_true, runPasses]
    cases p m <;> rfl
  · simp only [h, if_false, runPasses]

/-- C15: applying a rule is the composition of the passes of its populated
selectors in the order field value, field key, tag value, tag key,
measurement name, each pass on the metric as the previous one left it; a rule
with no populated selector returns the metric unchanged. -/
theorem convert_eq_passes (c : converter) (ord : RangeOrder) (m : Metric) :
    c.convert ord m = runPasses (c.passes ord) m
    ∧ (c.Field = [] → c.FieldKey = [] → c.Tag = [] → c.TagKey = [] → c.Measurement = [] →
        c.passes ord = [] ∧ c.convert ord m = some m)
    ∧ (c.Field ≠ [] → c.FieldKey ≠ [] → c.Tag ≠ [] → c.TagKey ≠ [] → c.Measurement ≠ [] →
        c.passes ord = [c.convertField ord.field, c.convertFieldKey ord.fieldKey,
          c.convertTag ord.tag, c.convertTagKey ord.tagKey, c.convertMeasurement]) := by
  have h1 : c.convert ord m = runPasses (c.passes ord) m := by
    unfold converter.convert converter.passes
    simp only [runPasses_append, runPasses_optional, Option.bind_assoc]
  refine ⟨h1, ?_, ?_⟩
  · intro a b d e g
    have hp : c.passes ord = [] := by simp [converter.passes, a, b, d, e, g]
    exact ⟨hp, by rw [h1, hp, runPasses]⟩
  · intro a b d e g
    simp [converter.passes, a, b, d, e, g]

/-- C15 at a rule with the tag and the measurement selector populated: the tag
pass runs, then the measurement pass. -/
theorem convert_eq_passes_witness :
    upperTagNameRule.passes RangeOrder.stored
        = [upperTagNameRule.convertTag id, upperTagNameRule.convertMeasurement]
    ∧ upperTagNameRule.convert RangeOrder.stored cpuMetric
        = some ⟨str "CPU", [(str "host", str "  A  ")], cpuMetric.fields⟩ := by
  refine ⟨rfl, ?_⟩
  rw [(convert_eq_passes upperTagNameRule RangeOrder.stored cpuMetric).1]
  decide

theorem convertFieldLoop_frame (c : converter) :
    ∀ (l : List (GoString × FieldValue)) (m m1 : Metric),
      c.convertFieldLoop l m = some m1 → m1.name = m.name ∧ m1.tags = m.tags := by
  intro l
  induction l with
  | nil =>
    intro m m1 h
    simp only [converter.convertFieldLoop, Option.some.injEq] at h
    subst h
    exact ⟨rfl, rfl⟩
  | cons e rest ih =>
    intro m m1 h
    obtain ⟨k, v⟩ := e
    cases v with
    | str s =>
      simp only [converter.convertFieldLoop] at h
      cases hcall : c.call s with
      | none => simp [hcall] at h
      | some w =>
        simp only [hcall] at h
        exact (ih _ _ h :)
    | int i => simp only [converter.convertFieldLoop] at h; exact (ih _ _ h :)
    | uint u => simp only [converter.convertFieldLoop] at h; exact (ih _ _ h :)
    | float b => simp only [converter.convertFieldLoop] at h; exact (ih _ _ h :)
    | bool b => simp only [converter.convertFieldLoop] at h; exact (ih _ _ h :)

theorem convertFieldKeyLoop_frame (c : converter) :
    ∀ (l : List (GoString × FieldValue)) (m m1 : Metric),
      c.convertFieldKeyLoop l m = some m1 → m1.name = m.name ∧ m1.tags = m.tags := by
  intro l
  induction l with
  | nil =>
    intro m m1 h
    simp only [converter.convertFieldKeyLoop, Option.some.injEq] at h
    subst h
    exact ⟨rfl, rfl⟩
  | cons e rest ih =>
    intro m m1 h
    obtain ⟨k, v⟩ := e
    simp only [converter.convertFieldKeyLoop] at h
    cases hcall : c.call k with
    | none => simp [hcall] at h
    | some w =>
      simp only [hcall] at h
      split at h
      · exact (ih _ _ h :)
      · exact (ih _ _ h :)

theorem convertTagLoop_frame (c : converter) :
    ∀ (l : List (GoString × GoString)) (m m1 : Metric),
      c.convertTagLoop l m = some m1 → m1.name = m.name ∧ m1.fields = m.fields := by
  intro l
  induction l with
  | nil =>
    intro m m1 h
    simp only [converter.convertTagLoop, Option.some.injEq] at h
    subst h
    exact ⟨rfl, rfl⟩
  | cons e rest ih =>
    intro m m1 h
    obtain ⟨k, v⟩ := e
    simp only [converter.convertTagLoop] at h
    cases hcall : c.call v with
    | none => simp [hcall] at h
    | some w =>
      simp only [hcall] at h
      exact (ih _ _ h :)

theorem convertTagKeyLoop_frame (c : converter) :
    ∀ (l : List (GoString × GoString)) (m m1 : Metric),
      c.convertTagKeyLoop l m = some m1 → m1.name = m.name ∧ m1.fields = m.fields := by
  intro l
  induction l with
  | nil =>
    intro m m1 h
    simp only [converter.convertTagKeyLoop, Option.some.injEq] at h
    subst h
    exact ⟨rfl, rfl⟩
  | cons e rest ih =>
    intro m m1 h
    obtain ⟨k, v⟩ := e
    simp only [converter.convertTagKeyLoop] at h
    cases hcall : c.call k with
    | none => simp [hcall] at h
    | some w =>
      simp only [hcall] at h
      split at h
      · exact (ih _ _ h :)
      · exact (ih _ _ h :)

theorem convertField_total (c : converter) (h : c.Total)
    (ord : List (GoString × FieldValue) → List (GoString × FieldValue)) (m : Metric) :
    ∃ m1, c.convertField ord m = some m1 := by
  unfold converter.convertField
  split
  · exact convertFieldLoop_total c h _ _
  · split
    · exact ⟨m, rfl⟩
    · exact convertFieldLoop_total c h _ _

theorem convertFieldKey_total (c : converter) (h : c.Total)
    (ord : List (GoString × FieldValue) → List (GoString × FieldValue)) (m : Metric) :
    ∃ m1, c.convertFieldKey ord m = some m1 := by
  unfold converter.convertFieldKey
  split
  · exact convertFieldKeyLoop_total c h _ _
  · split
    · exact ⟨m, rfl⟩
    · exact convertFieldKeyLoop_total c h _ _

theorem convertTag_total (c : converter) (h : c.Total)
    (ord : List (GoString × GoString) → List (GoString × GoString)) (m : Metric) :
    ∃ m1, c.convertTag ord m = some m1 := by
  unfold converter.convertTag
  split
  · exact convertTagLoop_total c h _ _
  · split
    · exact ⟨m, rfl⟩
    · exact convertTagLoop_total c h _ _

theorem convertTagKey_total (c : converter) (h : c.Total)
    (ord : List (GoString × GoString) → List (GoString × GoString)) (m : Metric) :
    ∃ m1, c.convertTagKey ord m = some m1 := by
  unfold converter.convertTagKey
  split
  · exact convertTagKeyLoop_total c h _ _
  · split
    · exact ⟨m, rfl⟩
    · exact convertTagKeyLoop_total c h _ _

theorem convertMeasurement_total (c : converter) (h : c.Total) (m : Metric) :
    ∃ m1, c.convertMeasurement m = some m1 := by
  unfold converter.convertMeasurement
  split
  · exact ⟨m, rfl⟩
  · obtain ⟨y, hy⟩ := call_of_total c h m.Name
    exact ⟨m.SetName y, by simp [hy]⟩

/-- C20: every pass touches only its own part of the metric.  Whatever the
rule and the order of the map visits, the metric returned by the field-value
or the field-key pass has the name and the tags of the input, the metric
returned by the tag-value or the tag-key pass has its name and its fields, and
the metric returned by the measurement pass has its tags and its fields.  A
rule with a total transform returns a metric from each pass. -/
theorem pass_frame (c : converter) (m : Metric)
    (ordF ordFK : List (GoString × FieldValue) → List (GoString × FieldValue))
    (ordT ordTK : List (GoString × GoString) → List (GoString × GoString)) :
    (∀ m1, c.convertField ordF m = some m1 → m1.name = m.name ∧ m1.tags = m.tags)
    ∧ (∀ m1, c.convertFieldKey ordFK m = some m1 → m1.name = m.name ∧ m1.tags = m.tags)
    ∧ (∀ m1, c.convertTag ordT m = some m1 → m1.name = m.name ∧ m1.fields = m.fields)
    ∧ (∀ m1, c.convertTagKey ordTK m = some m1 → m1.name = m.name ∧ m1.fields = m.fields)
    ∧ (∀ m1, c.convertMeasurement m = some m1 → m1.tags = m.tags ∧ m1.fields = m.fields)
    ∧ (c.Total →
        (∃ m1, c.convertField ordF m = some m1) ∧ (∃ m1, c.convertFieldKey ordFK m = some m1)
        ∧ (∃ m1, c.convertTag ordT m = some m1) ∧ (∃ m1, c.convertTagKey ordTK m = some m1)
        ∧ (∃ m1, c.convertMeasurement m = some m1)) := by
  refine ⟨?_, ?_, ?_, ?_, ?_, ?_⟩
  · intro m1 h
    unfold converter.convertField at h
    split at h
    · exact convertFieldLoop_frame c _ _ _ h
    · split at h
      · simp only [Option.some.injEq] at h; subst h; exact ⟨rfl, rfl⟩
      · exact convertFieldLoop_frame c _ _ _ h
  · intro m1 h
    unfold converter.convertFieldKey at h
    split at h
    · exact convertFieldKeyLoop_frame c _ _ _ h
    · split at h
      · simp only [Option.some.injEq] at h; subst h; exact ⟨rfl, rfl⟩
      · exact convertFieldKeyLoop_frame c _ _ _ h
  · intro m1 h
    unfold converter.convertTag at h
    split at h
    · exact convertTagLoop_frame c _ _ _ h
    · split at h
      · simp only [Option.some.injEq] at h; subst h; exact ⟨rfl, rfl⟩
      · exact convertTagLoop_frame c _ _ _ h
  · intro m1 h
    unfold converter.convertTagKey at h
    split at h
    · exact convertTagKeyLoop_frame c _ _ _ h
    · split at h
      · simp only [Option.some.injEq] at h; subst h; exact ⟨rfl, rfl⟩
      · exact convertTagKeyLoop_frame c _ _ _ h
  · intro m1 h
    unfold converter.convertMeasurement at h
    split at h
    · simp only [Option.some.injEq] at h; subst h; exact ⟨rfl, rfl⟩
    · cases hcall : c.call m.Name with
      | none => simp [hcall] at h
      | some w =>
        simp only [hcall, Option.some.injEq] at h
        subst h
        exact ⟨rfl, rfl⟩
  · intro ht
    exact ⟨convertField_total c ht ordF m, convertFieldKey_total c ht ordFK m,
      convertTag_total c ht ordT m, convertTagKey_total c ht ordTK m,
      convertMeasurement_total c ht m⟩

/-- C20 at the metric `cpu` and the rule that upper-cases the tag `host` and
the name: the tag pass changes the tag only. -/
theorem pass_frame_witness :
    upperTagNameRule.convertTag id cpuMetric
      = some ⟨cpuMetric.name, [(str "host", str "  A  ")], cpuMetric.fields⟩
    ∧ ∀ m1, upperTagNameRule.convertTag id cpuMetric = some m1 →
        m1.name = cpuMetric.name ∧ m1.fields = cpuMetric.fields :=
  ⟨by decide, (pass_frame upperTagNameRule cpuMetric id id id id).2.2.1⟩

/-! ## C11, C12: the value passes -/

theorem convertField_star (c : converter) (f : GoString → GoString)
    (hc : c.Computes f) (hs : c.Field = star) (m : Metric)
    (ord : List (GoString × FieldValue) → List (GoString × FieldValue))
    (hord : (ord m.Fields).Perm m.Fields) (hwf : (keys m.fields).Nodup) :
    c.convertField ord m
      = some { m with fields := m.fields.map (fun e => (e.1, convValue f e.2)) } := by
  simp only [converter.convertField, hs, if_true]
  rw [convertFieldLoop_computes c f hc, hs, destKey_star]
  simp only [Metric.Fields] at hord ⊢
  rw [valueLoop_id_eq_map (fieldConv f) m.fields (ord m.fields) hwf hord]
  simp only [fieldConv_getD]

theorem convertTag_star (c : converter) (f : GoString → GoString)
    (hc : c.Computes f) (hs : c.Tag = star) (m : Metric)
    (ord : List (GoString × GoString) → List (GoString × GoString))
    (hord : (ord m.Tags).Perm m.Tags) (hwf : (keys m.tags).Nodup) :
    c.convertTag ord m = some { m with tags := m.tags.map (fun e => (e.1, f e.2)) } := by
  simp only [converter.convertTag, hs, if_true]
  rw [convertTagLoop_computes c f hc, hs, destKey_star]
  simp only [Metric.Tags] at hord ⊢
  rw [valueLoop_id_eq_map (fun v => some (f v)) m.tags (ord m.tags) hwf hord]
  simp only [Option.getD_some]

/-- C11: the field-value pass of a rule with selector `*` and the total
transform `f`, on a metric with unique field keys.  The returned metric has
the same field keys, in the same places; a string field `k -> v` has become
`k -> f v`, a field of another type has kept its value; name and tags are
unchanged.  Every rule with selector `*` and the same transform, whatever its
dest, and every order of visiting the fields return this same metric. -/
theorem convertField_wildcard (c : converter) (f : GoString → GoString)
    (hc : c.Computes f) (hs : c.Field = star) (m : Metric)
    (ord : List (GoString × FieldValue) → List (GoString × FieldValue))
    (hord : (ord m.Fields).Perm m.Fields) (hwf : (keys m.fields).Nodup) :
    ∃ m1, c.convertField ord m = some m1
      ∧ keys m1.fields = keys m.fields
      ∧ (∀ k v, m.GetField k = some (FieldValue.str v) →
          m1.GetField k = some (FieldValue.str (f v)))
      ∧ (∀ k w, m.GetField k = some w → (∀ v, w ≠ FieldValue.str v) → m1.GetField k = some w)
      ∧ m1.fields = m.fields.map (fun e => (e.1, convValue f e.2))
      ∧ m1.name = m.name ∧ m1.tags = m.tags
      ∧ ∀ (c2 : converter)
          (ord2 : List (GoString × FieldValue) → List (GoString × FieldValue)),
          c2.Computes f → c2.Field = star → (ord2 m.Fields).Perm m.Fields →
          c2.convertField ord2 m = some m1 := by
  have hget : ∀ k, kvGet k (m.fields.map (fun e => (e.1, convValue f e.2)))
      = (kvGet k m.fields).map (convValue f) := fun k => kvGet_map k (convValue f) m.fields
  refine ⟨_, convertField_star c f hc hs m ord hord hwf, keys_map_value (convValue f) m.fields,
    ?_, ?_, rfl, rfl, rfl, ?_⟩
  · intro k v h
    simp only [Metric.GetField] at h ⊢
    rw [hget, h]
    rfl
  · intro k w h hw
    simp only [Metric.GetField] at h ⊢
    rw [hget, h]
    cases w with
    | str v => exact absurd rfl (hw v)
    | int i => rfl
    | uint u => rfl
    | float b => rfl
    | bool b => rfl
  · intro c2 ord2 hc2 hs2 hord2
    exact convertField_star c2 f hc2 hs2 m ord2 hord2 hwf

/-- C11 at the metric `cpu`, visited last to first, and a rule with a dest:
the string field `state` is upper-cased in place, the integer field `load` is
kept, and no field `ignored` appears. -/
theorem convertField_wildcard_witness :
    upperFieldsRule.convertField List.reverse cpuMetric
      = some ⟨str "cpu", [(str "host", str "  a  ")],
          [(str "state", FieldValue.str (str "HELLO")), (str "load", FieldValue.int 7)]⟩ := by
  obtain ⟨m1, h1, _, _, _, h5, h6, h7, _⟩ :=
    convertField_wildcard upperFieldsRule asciiUpper rfl rfl cpuMetric List.reverse
      (by decide) (by decide)
  rw [h1]
  cases m1 with
  | mk n t fl =>
    simp only at h5 h6 h7
    subst h5 h6 h7
    decide

theorem convertField_exact (c : converter) (f : GoString → GoString)
    (hc : c.Computes f) (hs : c.Field ≠ star) (m : Metric)
    (ord : List (GoString × FieldValue) → List (GoString × FieldValue)) :
    c.convertField ord m =
      match m.GetField c.Field with
      | none => some m
      | some (FieldValue.str v) =>
        some (m.AddField (if c.Dest ≠ [] then c.Dest else c.Field) (FieldValue.str (f v)))
      | some _ => some m := by
  simp only [converter.convertField, hs, if_false]
  cases hg : m.GetField c.Field with
  | none => rfl
  | some w =>
    have hd : destKey c.Field c.Dest c.Field = if c.Dest ≠ [] then c.Dest else c.Field := by
      simp [destKey, hs]
    cases w with
    | str v =>
      simp only [convertFieldLoop_computes c f hc, valueLoop, fieldConv, hd]
      rfl
    | int i => simp only [convertFieldLoop_computes c f hc, valueLoop, fieldConv]
    | uint u => simp only [convertFieldLoop_computes c f hc, valueLoop, fieldConv]
    | float b => simp only [convertFieldLoop_computes c f hc, valueLoop, fieldConv]
    | bool b => simp only [convertFieldLoop_computes c f hc, valueLoop, fieldConv]

theorem convertTag_exact (c : converter) (f : GoString → GoString)
    (hc : c.Computes f) (hs : c.Tag ≠ star) (m : Metric)
    (ord : List (GoString × GoString) → List (GoString × GoString)) :
    c.convertTag ord m =
      match m.GetTag c.Tag with
      | none => some m
      | some v => some (m.AddTag (if c.Dest ≠ [] then c.Dest else c.Tag) (f v)) := by
  simp only [converter.convertTag, hs, if_false]
  cases hg : m.GetTag c.Tag with
  | none => rfl
  | some v =>
    have hd : destKey c.Tag c.Dest c.Tag = if c.Dest ≠ [] then c.Dest else c.Tag := by
      simp [destKey, hs]
    simp only [convertTagLoop_computes c f hc, valueLoop, hd]
    rfl

/-- C12: the value passes of a rule with an exact selector and the total
transform `f`.  Let `d` be the dest of the rule, or the selector when the dest
is empty.  When the selected field holds the string `v`, the field pass returns
the metric in which the field `d` holds `f v` and every other field (the
selected one too, when `d` is another name), every tag and the name are as
before.  When the selected field holds no string, the pass returns the metric
unchanged (no field `d` is created).  The tag pass does the same on tags. -/
theorem exact_value_pass (c : converter) (f : GoString → GoString)
    (hc : c.Computes f) (m : Metric)
    (ordF : List (GoString × FieldValue) → List (GoString × FieldValue))
    (ordT : List (GoString × GoString) → List (GoString × GoString)) :
    (c.Field ≠ star → ∀ v, m.GetField c.Field = some (FieldValue.str v) →
        ∃ m1, c.convertField ordF m = some m1
          ∧ m1.GetField (if c.Dest ≠ [] then c.Dest else c.Field) = some (FieldValue.str (f v))
          ∧ (∀ k, k ≠ (if c.Dest ≠ [] then c.Dest else c.Field) → m1.GetField k = m.GetField k)
          ∧ m1.tags = m.tags ∧ m1.name = m.name)
    ∧ (c.Field ≠ star → ∀ w, m.GetField c.Field = some w → (∀ v, w ≠ FieldValue.str v) →
        c.convertField ordF m = some m)
    ∧ (c.Tag ≠ star → ∀ v, m.GetTag c.Tag = some v →
        ∃ m1, c.convertTag ordT m = some m1
          ∧ m1.GetTag (if c.Dest ≠ [] then c.Dest else c.Tag) = some (f v)
          ∧ (∀ k, k ≠ (if c.Dest ≠ [] then c.Dest else c.Tag) → m1.GetTag k = m.GetTag k)
          ∧ m1.fields = m.fields ∧ m1.name = m.name) := by
  refine ⟨?_, ?_, ?_⟩
  · intro hs v hv
    refine ⟨m.AddField (if c.Dest ≠ [] then c.Dest else c.Field) (FieldValue.str (f v)),
      by rw [convertField_exact c f hc hs m ordF, hv], ?_, ?_, rfl, rfl⟩
    · simp only [Metric.GetField, Metric.AddField, kvGet_kvSet, if_true]
    · intro k hk
      simp only [Metric.GetField, Metric.AddField, kvGet_kvSet, hk, if_false]
  · intro hs w hw hns
    rw [convertField_exact c f hc hs m ordF, hw]
    cases w with
    | str v => exact absurd rfl (hns v)
    | int i => rfl
    | uint u => rfl
    | float b => rfl
    | bool b => rfl
  · intro hs v hv
    refine ⟨m.AddTag (if c.Dest ≠ [] then c.Dest else c.Tag) (f v),
      by rw [convertTag_exact c f hc hs m ordT, hv], ?_, ?_, rfl, rfl⟩
    · simp only [Metric.GetTag, Metric.AddTag, kvGet_kvSet, if_true]
    · intro k hk
      simp only [Metric.GetTag, Metric.AddTag, kvGet_kvSet, hk, if_false]

/-- C12 at the metric `cpu` and the rule on the field `state` and the tag
`host` with dest `copy`: the field and the tag `copy` are added with the
upper-cased value, `state` and `host` keep theirs. -/
theorem exact_value_pass_witness :
    (∃ m1, upperCopyRule.convertField id cpuMetric = some m1
        ∧ m1.GetField (str "copy") = some (FieldValue.str (str "HELLO"))
        ∧ (∀ k, k ≠ str "copy" → m1.GetField k = cpuMetric.GetField k)
        ∧ m1.tags = cpuMetric.tags ∧ m1.name = cpuMetric.name)
    ∧ (∃ m2, upperCopyRule.convertTag id cpuMetric = some m2
        ∧ m2.GetTag (str "copy") = some (str "  A  ")
        ∧ (∀ k, k ≠ str "copy" → m2.GetTag k = cpuMetric.GetTag k)
        ∧ m2.fields = cpuMetric.fields ∧ m2.name = cpuMetric.name)
    ∧ upperCopyRule.convertField id cpuMetric
        = some ⟨str "cpu", [(str "host", str "  a  ")],
            [(str "state", FieldValue.str (str "hello")), (str "load", FieldValue.int 7),
              (str "copy", FieldValue.str (str "HELLO"))]⟩ :=
  ⟨(exact_value_pass upperCopyRule asciiUpper rfl cpuMetric id id).1 (by decide)
      (str "hello") (by decide),
    (exact_value_pass upperCopyRule asciiUpper rfl cpuMetric id id).2.2 (by decide)
      (str "  a  ") (by decide),
    by decide⟩

/-! ## C16: `trim_prefix`, `trim_suffix` -/

theorem TrimPrefix_append (p t : GoString) : TrimPrefix (p ++ t) p = t := by
  have h : HasPrefix (p ++ t) p = true := List.isPrefixOf_iff_prefix.2 ⟨t, rfl⟩
  simp [TrimPrefix, h]

theorem TrimPrefix_of_not_prefix (p s : GoString) (h : ¬ p <+: s) : TrimPrefix s p = s := by
  have h1 : ¬ HasPrefix s p = true := fun h2 => h (List.isPrefixOf_iff_prefix.1 h2)
  simp [TrimPrefix, h1]

theorem TrimSuffix_append (p t : GoString) : TrimSuffix (t ++ p) p = t := by
  have h : HasSuffix (t ++ p) p = true := List.isSuffixOf_iff_suffix.2 ⟨t, rfl⟩
  simp [TrimSuffix, h]

theorem TrimSuffix_of_not_suffix (p s : GoString) (h : ¬ p <:+ s) : TrimSuffix s p = s := by
  have h1 : ¬ HasSuffix s p = true := fun h2 => h (List.isSuffixOf_iff_suffix.1 h2)
  simp [TrimSuffix, h1]

/-- C16: the transform of a `trim_prefix` rule returns, for a string that
starts with the configured prefix `p`, the rest of the string after that one
occurrence of `p` (so `p ++ t` gives `t`, also when `t` starts with `p`
again), and the string itself when it does not start with `p`.  The transform
of a `trim_suffix` rule does the same at the end of the string with the
configured suffix.  Prefix `x`: `xxa` gives `xa`; suffix `x`: `axx` gives
`ax`. -/
theorem trim_prefix_suffix_spec (c : converter) (s : GoString) :
    (∀ t, trimPrefixFn c (c.Prefix ++ t) = some t)
    ∧ (c.Prefix <+: s → ∃ t, s = c.Prefix ++ t ∧ trimPrefixFn c s = some t)
    ∧ (¬ c.Prefix <+: s → trimPrefixFn c s = some s)
    ∧ (∀ t, trimSuffixFn c (t ++ c.Suffix) = some t)
    ∧ (c.Suffix <:+ s → ∃ t, s = t ++ c.Suffix ∧ trimSuffixFn c s = some t)
    ∧ (¬ c.Suffix <:+ s → trimSuffixFn c s = some s)
    ∧ trimPrefixFn { Prefix := str "x" } (str "xxa") = some (str "xa")
    ∧ trimPrefixFn { Prefix := str "x" } (str "ax") = some (str "ax")
    ∧ trimSuffixFn { Suffix := str "x" } (str "axx") = some (str "ax")
    ∧ trimSuffixFn { Suffix := str "x" } (str "xa") = some (str "xa") := by
  refine ⟨?_, ?_, ?_, ?_, ?_, ?_, by decide, by decide, by decide, by decide⟩
  · intro t
    simp only [trimPrefixFn, TrimPrefix_append]
  · rintro ⟨t, rfl⟩
    exact ⟨t, rfl, by simp only [trimPrefixFn, TrimPrefix_append]⟩
  · intro h
    simp only [trimPrefixFn, TrimPrefix_of_not_prefix _ _ h]
  · intro t
    simp only [trimSuffixFn, TrimSuffix_append]
  · rintro ⟨t, rfl⟩
    exact ⟨t, rfl, by simp only [trimSuffixFn, TrimSuffix_append]⟩
  · intro h
    simp only [trimSuffixFn, TrimSuffix_of_not_suffix _ _ h]

/-! ## C19: the wildcard key passes -/

/-- C19: the key passes of a rule with selector `*` and the total key
transform `f`.  Let the keys (of the fields, of the tags) be unique, `f`
injective on them, and let `f k` be `k` itself or no key of the metric for
every key `k`.  Then the pass returns a metric that holds exactly the original
entries, the entry `k -> v` under `f k`, or under `k` when `f k` is empty; the
values, of whatever type, and the number of entries are as before, the keys
are unique, and every order of the visit gives the same mapping. -/
theorem key_pass_wildcard (c : converter) (f : GoString → GoString)
    (hc : c.Computes f) (m : Metric) :
    (c.FieldKey = star → (keys m.fields).Nodup →
      (∀ a ∈ keys m.fields, ∀ b ∈ keys m.fields, f a = f b → a = b) →
      (∀ a ∈ keys m.fields, f a = a ∨ f a ∉ keys m.fields) →
      ∀ ord : List (GoString × FieldValue) → List (GoString × FieldValue),
        (ord m.Fields).Perm m.Fields →
        ∃ m1, c.convertFieldKey ord m = some m1
          ∧ m1.fields.Perm (m.fields.map (fun e => (renameKey f e.1, e.2)))
          ∧ (keys m1.fields).Nodup
          ∧ m1.fields.length = m.fields.length
          ∧ (∀ k v, m1.GetField k = some v ↔ ∃ k0, (k0, v) ∈ m.fields ∧ renameKey f k0 = k)
          ∧ m1.name = m.name ∧ m1.tags = m.tags)
    ∧ (c.TagKey = star → (keys m.tags).Nodup →
      (∀ a ∈ keys m.tags, ∀ b ∈ keys m.tags, f a = f b → a = b) →
      (∀ a ∈ keys m.tags, f a = a ∨ f a ∉ keys m.tags) →
      ∀ ord : List (GoString × GoString) → List (GoString × GoString),
        (ord m.Tags).Perm m.Tags →
        ∃ m1, c.convertTagKey ord m = some m1
          ∧ m1.tags.Perm (m.tags.map (fun e => (renameKey f e.1, e.2)))
          ∧ (keys m1.tags).Nodup
          ∧ m1.tags.length = m.tags.length
          ∧ (∀ k v, m1.GetTag k = some v ↔ ∃ k0, (k0, v) ∈ m.tags ∧ renameKey f k0 = k)
          ∧ m1.name = m.name ∧ m1.fields = m.fields) := by
  constructor
  · intro hs hwf hinj hfresh ord hord
    have hp : (renameLoop f (ord m.fields) m.fields).Perm
        (m.fields.map (fun e => (renameKey f e.1, e.2))) :=
      renameLoop_perm f m.fields (ord m.fields) hwf hord hinj
        (fun a ha hin => (hfresh a ha).resolve_right (fun h => h hin))
    have hnd : (keys (renameLoop f (ord m.fields) m.fields)).Nodup :=
      nodup_keys_renameLoop f _ _ hwf
    refine ⟨_, convertFieldKey_star c f hc hs m ord, hp, hnd, ?_, ?_, rfl, rfl⟩
    · simpa using hp.length_eq
    · intro k v
      simp only [Metric.GetField]
      constructor
      · intro h
        obtain ⟨e, he, heq⟩ := List.mem_map.1 (hp.subset (mem_of_kvGet_eq_some h))
        simp only [Prod.mk.injEq] at heq
        exact ⟨e.1, by rw [← heq.2]; exact he, heq.1⟩
      · rintro ⟨k0, hk0, rfl⟩
        exact kvGet_eq_some_of_mem hnd (hp.symm.subset (List.mem_map.2 ⟨(k0, v), hk0, rfl⟩))
  · intro hs hwf hinj hfresh ord hord
    have hp : (renameLoop f (ord m.tags) m.tags).Perm
        (m.tags.map (fun e => (renameKey f e.1, e.2))) :=
      renameLoop_perm f m.tags (ord m.tags) hwf hord hinj
        (fun a ha hin => (hfresh a ha).resolve_right (fun h => h hin))
    have hnd : (keys (renameLoop f (ord m.tags) m.tags)).Nodup :=
      nodup_keys_renameLoop f _ _ hwf
    refine ⟨_, convertTagKey_star c f hc hs m ord, hp, hnd, ?_, ?_, rfl, rfl⟩
    · simpa using hp.length_eq
    · intro k v
      simp only [Metric.GetTag]
      constructor
      · intro h
        obtain ⟨e, he, heq⟩ := List.mem_map.1 (hp.subset (mem_of_kvGet_eq_some h))
        simp only [Prod.mk.injEq] at heq
        exact ⟨e.1, by rw [← heq.2]; exact he, heq.1⟩
      · rintro ⟨k0, hk0, rfl⟩
        exact kvGet_eq_some_of_mem hnd (hp.symm.subset (List.mem_map.2 ⟨(k0, v), hk0, rfl⟩))

/-- C19 at the fields and tags `x`, `xb` and the rule that strips the prefix
`x` from every key, visited last to first: `x` stays (its new key is empty),
`xb` becomes `b`, the values are carried over. -/
theorem key_pass_wildcard_witness :
    (∃ m1, stripXRule.convertFieldKey List.reverse xMetric = some m1
      ∧ m1.fields.Perm
          (xMetric.fields.map (fun e => (renameKey (fun k => TrimPrefix k (str "x")) e.1, e.2)))
      ∧ (keys m1.fields).Nodup
      ∧ m1.fields.length = xMetric.fields.length
      ∧ (∀ k v, m1.GetField k = some v ↔
          ∃ k0, (k0, v) ∈ xMetric.fields ∧ renameKey (fun k => TrimPrefix k (str "x")) k0 = k)
      ∧ m1.name = xMetric.name ∧ m1.tags = xMetric.tags)
    ∧ xMetric.fields.map (fun e => (renameKey (fun k => TrimPrefix k (str "x")) e.1, e.2))
        = [(str "x", FieldValue.int 1), (str "b", FieldValue.int 2)] :=
  ⟨(key_pass_wildcard stripXRule (fun k => TrimPrefix k (str "x")) rfl xMetric).1 rfl
      (by decide) (by decide) (by decide) List.reverse (by decide),
    by decide⟩

/-! ## C18: every rule is bound to its own entry -/

theorem getElem?_skip_group (F : converter → converter) (G X : List converter) (j : Nat) :
    (G.map F ++ X)[G.length + j]? = X[j]? := by
  have h : (G.map F).length ≤ G.length + j := by simp
  rw [List.getElem?_append_right h]
  simp

theorem getElem?_in_group (F : converter → converter) (G X : List converter) (i : Nat)
    (c : converter) (h : G[i]? = some c) : (G.map F ++ X)[i]? = some (F c) := by
  have hi : i < G.length := by
    by_contra hn
    rw [List.getElem?_eq_none (by omega)] at h
    exact absurd h (by simp)
  rw [List.getElem?_append_left (by simpa using hi), List.getElem?_map, h]
  rfl

theorem getElem?_last_group (F : converter → converter) (G : List converter) (i : Nat)
    (c : converter) (h : G[i]? = some c) : (G.map F)[i]? = some (F c) := by
  rw [List.getElem?_map, h]
  rfl

theorem call_bound (c : converter) (g : convertFunc) (x : GoString) :
    ({ c with fn := some g } : converter).call x = g x := rfl

theorem unbound_bound (c : converter) (g : convertFunc) :
    ({ c with fn := some g } : converter).unbound = c.unbound := rfl

/-- C18: on a processor that was not compiled yet, the rule compiled from the
`i`-th entry `c` of a group has the configuration of `c` and transforms
strings with the parameters of `c`: the cutset of `c` for `trim`, `trim_left`
and `trim_right`, its prefix, its suffix, its old and new, its width, its
replacement for the other groups. -/
theorem rule_bound_to_own_entry (lib : CaseLib) (s : Strings) (h : s.init = false)
    (i : Nat) (c : converter) :
    (s.Trim[i]? = some c →
      ∃ r, (s.initOnce lib).converters[s.Lowercase.length + (s.Uppercase.length
              + (s.Titlecase.length + i))]? = some r
        ∧ r.unbound = c.unbound
        ∧ ∀ x, r.call x = some (if c.Cutset ≠ [] then Trim x c.Cutset else TrimFunc x IsSpace))
    ∧ (s.TrimLeft[i]? = some c →
      ∃ r, (s.initOnce lib).converters[s.Lowercase.length + (s.Uppercase.length
              + (s.Titlecase.length + (s.Trim.length + i)))]? = some r
        ∧ r.unbound = c.unbound
        ∧ ∀ x, r.call x
            = some (if c.Cutset ≠ [] then TrimLeft x c.Cutset else TrimLeftFunc x IsSpace))
    ∧ (s.TrimRight[i]? = some c →
      ∃ r, (s.initOnce lib).converters[s.Lowercase.length + (s.Uppercase.length
              + (s.Titlecase.length + (s.Trim.length + (s.TrimLeft.length + i))))]? = some r
        ∧ r.unbound = c.unbound
        ∧ ∀ x, r.call x
            = some (if c.Cutset ≠ [] then TrimRight x c.Cutset else TrimRightFunc x IsSpace))
    ∧ (s.TrimPrefix[i]? = some c →
      ∃ r, (s.initOnce lib).converters[s.Lowercase.length + (s.Uppercase.length
              + (s.Titlecase.length + (s.Trim.length + (s.TrimLeft.length
              + (s.TrimRight.length + i)))))]? = some r
        ∧ r.unbound = c.unbound
        ∧ ∀ x, r.call x = some (TrimPrefix x c.Prefix))
    ∧ (s.TrimSuffix[i]? = some c →
      ∃ r, (s.initOnce lib).converters[s.Lowercase.length + (s.Uppercase.length
              + (s.Titlecase.length + (s.Trim.length + (s.TrimLeft.length
              + (s.TrimRight.length + (s.TrimPrefix.length + i))))))]? = some r
        ∧ r.unbound = c.unbound
        ∧ ∀ x, r.call x = some (TrimSuffix x c.Suffix))
    ∧ (s.Replace[i]? = some c →
      ∃ r, (s.initOnce lib).converters[s.Lowercase.length + (s.Uppercase.length
              + (s.Titlecase.length + (s.Trim.length + (s.TrimLeft.length
              + (s.TrimRight.length + (s.TrimPrefix.length
              + (s.TrimSuffix.length + i)))))))]? = some r
        ∧ r.unbound = c.unbound
        ∧ ∀ x, r.call x
            = some (if ReplaceAll x c.Old c.New = [] then x else ReplaceAll x c.Old c.New))
    ∧ (s.Left[i]? = some c →
      ∃ r, (s.initOnce lib).converters[s.Lowercase.length + (s.Uppercase.length
              + (s.Titlecase.length + (s.Trim.length + (s.TrimLeft.length
              + (s.TrimRight.length + (s.TrimPrefix.length
              + (s.TrimSuffix.length + (s.Replace.length + i))))))))]? = some r
        ∧ r.unbound = c.unbound
        ∧ ∀ x, r.call x = if (x.length : Int) < c.Width then some x else sliceTo x c.Width)
    ∧ (s.ValidUTF8[i]? = some c →
      ∃ r, (s.initOnce lib).converters[s.Lowercase.length + (s.Uppercase.length
              + (s.Titlecase.length + (s.Trim.length + (s.TrimLeft.length
              + (s.TrimRight.length + (s.TrimPrefix.length
              + (s.TrimSuffix.length + (s.Replace.length + (s.Left.length
              + (s.Base64Decode.length + i))))))))))]? = some r
        ∧ r.unbound = c.unbound
        ∧ ∀ x, r.call x = some (ToValidUTF8 x c.Replacement)) := by
  have hconv := initOnce_converters lib s h
  simp only [List.append_assoc] at hconv
  rw [hconv]
  refine ⟨?_, ?_, ?_, ?_, ?_, ?_, ?_, ?_⟩
  · intro hi
    refine ⟨{ c with fn := some (trimFn c) }, ?_, unbound_bound c _, ?_⟩
    · simp only [getElem?_skip_group]
      exact getElem?_in_group (fun c => { c with fn := some (trimFn c) }) _ _ i c hi
    · intro x
      rw [call_bound]
      unfold trimFn
      split <;> rfl
  · intro hi
    refine ⟨{ c with fn := some (trimLeftFn c) }, ?_, unbound_bound c _, ?_⟩
    · simp only [getElem?_skip_group]
      exact getElem?_in_group (fun c => { c with fn := some (trimLeftFn c) }) _ _ i c hi
    · intro x
      rw [call_bound]
      unfold trimLeftFn
      split <;> rfl
  · intro hi
    refine ⟨{ c with fn := some (trimRightFn c) }, ?_, unbound_bound c _, ?_⟩
    · simp only [getElem?_skip_group]
      exact getElem?_in_group (fun c => { c with fn := some (trimRightFn c) }) _ _ i c hi
    · intro x
      rw [call_bound]
      unfold trimRightFn
      split <;> rfl
  · intro hi
    refine ⟨{ c with fn := some (trimPrefixFn c) }, ?_, unbound_bound c _, fun x => rfl⟩
    simp only [getElem?_skip_group]
    exact getElem?_in_group (fun c => { c with fn := some (trimPrefixFn c) }) _ _ i c hi
  · intro hi
    refine ⟨{ c with fn := some (trimSuffixFn c) }, ?_, unbound_bound c _, fun x => rfl⟩
    simp only [getElem?_skip_group]
    exact getElem?_in_group (fun c => { c with fn := some (trimSuffixFn c) }) _ _ i c hi
  · intro hi
    refine ⟨{ c with fn := some (replaceFn c) }, ?_, unbound_bound c _, ?_⟩
    · simp only [getElem?_skip_group]
      exact getElem?_in_group (fun c => { c with fn := some (replaceFn c) }) _ _ i c hi
    · intro x
      rw [call_bound]
      unfold replaceFn
      simp only
      split <;> simp_all
  · intro hi
    refine ⟨{ c with fn := some (leftFn c) }, ?_, unbound_bound c _, fun x => rfl⟩
    simp only [getElem?_skip_group]
    exact getElem?_in_group (fun c => { c with fn := some (leftFn c) }) _ _ i c hi
  · intro hi
    refine ⟨{ c with fn := some (validUTF8Fn c) }, ?_, unbound_bound c _, fun x => rfl⟩
    simp only [getElem?_skip_group]
    exact getElem?_last_group (fun c => { c with fn := some (validUTF8Fn c) }) _ i c hi

/-- C18 at a configuration with two `trim` rules, cutsets `x` and `y`, and two
`left` rules, widths 1 and 2: the first `trim` rule strips `x`, the second
`y`; the first `left` rule keeps one byte, the second two. -/
theorem rule_bound_to_own_entry_witness :
    (∃ r, (twoTrimConfig.initOnce idLib).converters[0]? = some r
      ∧ r.call (str "xyay") = some (str "yay"))
    ∧ (∃ r, (twoTrimConfig.initOnce idLib).converters[1]? = some r
      ∧ r.call (str "yxay") = some (str "xa"))
    ∧ (∃ r, (twoTrimConfig.initOnce idLib).converters[2]? = some r
      ∧ r.call (str "abc") = some (str "a"))
    ∧ (∃ r, (twoTrimConfig.initOnce idLib).converters[3]? = some r
      ∧ r.call (str "abc") = some (str "ab")) := by
  obtain ⟨r0, h0, _, c0⟩ :=
    (rule_bound_to_own_entry idLib twoTrimConfig rfl 0
      { Field := str "f", Cutset := str "x" }).1 rfl
  obtain ⟨r1, h1, _, c1⟩ :=
    (rule_bound_to_own_entry idLib twoTrimConfig rfl 1
      { Field := str "f", Cutset := str "y" }).1 rfl
  obtain ⟨r2, h2, _, c2⟩ :=
    (rule_bound_to_own_entry idLib twoTrimConfig rfl 0
      { Field := str "f", Width := 1 }).2.2.2.2.2.2.1 rfl
  obtain ⟨r3, h3, _, c3⟩ :=
    (rule_bound_to_own_entry idLib twoTrimConfig rfl 1
      { Field := str "f", Width := 2 }).2.2.2.2.2.2.1 rfl
  exact ⟨⟨r0, h0, (c0 _).trans (by decide)⟩, ⟨r1, h1, (c1 _).trans (by decide)⟩,
    ⟨r2, h2, (c2 _).trans (by decide)⟩, ⟨r3, h3, (c3 _).trans (by decide)⟩⟩

/-! ## Valid UTF-8 -/

theorem getD_append_left (l b : GoString) (i : Nat) (h : i < l.length) :
    (l ++ b).getD i 0 = l.getD i 0 := by
  simp [List.getD_eq_getElem?_getD, List.getElem?_append_left h]

theorem decodeMulti_append (s0 : Nat) (rest b : GoString) (sz lo hi : Nat)
    (hsz : 2 ≤ sz ∧ sz ≤ 4) (hv : decodeMulti s0 rest sz lo hi ≠ (RuneError, 1)) :
    decodeMulti s0 (rest ++ b) sz lo hi = decodeMulti s0 rest sz lo hi := by
  have e0 : 1 ≤ rest.length → (rest ++ b).getD 0 0 = rest.getD 0 0 :=
    fun h => getD_append_left rest b 0 h
  have e1 : 2 ≤ rest.length → (rest ++ b).getD 1 0 = rest.getD 1 0 :=
    fun h => getD_append_left rest b 1 h
  have e2 : 3 ≤ rest.length → (rest ++ b).getD 2 0 = rest.getD 2 0 :=
    fun h => getD_append_left rest b 2 h
  unfold decodeMulti at hv ⊢
  simp only [List.length_append] at hv ⊢
  generalize (rest ++ b).getD 0 0 = a0 at e0 ⊢
  generalize (rest ++ b).getD 1 0 = a1 at e1 ⊢
  generalize (rest ++ b).getD 2 0 = a2 at e2 ⊢
  generalize rest.getD 0 0 = b0 at e0 hv ⊢
  generalize rest.getD 1 0 = b1 at e1 hv ⊢
  generalize rest.getD 2 0 = b2 at e2 hv ⊢
  generalize rest.length = L at e0 e1 e2 hv ⊢
  generalize b.length = B at hv ⊢
  by_cases hS : L + 1 < sz
  · rw [if_pos hS] at hv
    exact absurd rfl hv
  · have hS1 : ¬ L + B + 1 < sz := by omega
    rw [if_neg hS] at hv ⊢
    rw [if_neg hS1]
    have := e0 (by omega)
    subst this
    by_cases hR : a0.val < lo ∨ hi < a0.val
    · rw [if_pos hR] at hv
      exact absurd rfl hv
    · rw [if_neg hR] at hv ⊢
      rw [if_neg hR]
      by_cases h2s : sz ≤ 2
      · rw [if_pos h2s, if_pos h2s]
      · rw [if_neg h2s] at hv ⊢
        rw [if_neg h2s]
        have := e1 (by omega)
        subst this
        by_cases hC : isCont a1.val = false
        · rw [if_pos hC] at hv
          exact absurd rfl hv
        · rw [if_neg hC] at hv ⊢
          rw [if_neg hC]
          by_cases h3s : sz ≤ 3
          · rw [if_pos h3s, if_pos h3s]
          · rw [if_neg h3s] at hv ⊢
            rw [if_neg h3s]
            have := e2 (by omega)
            subst this
            rfl

/-- A rune that is decoded without an error is decoded the same way when
more bytes follow the string. -/
theorem decode_append (a b : GoString) (ha : a ≠ [])
    (hv : DecodeRuneInString a ≠ (RuneError, 1)) :
    DecodeRuneInString (a ++ b) = DecodeRuneInString a := by
  cases a with
  | nil => exact absurd rfl ha
  | cons a0 rest =>
    simp only [List.cons_append, DecodeRuneInString] at hv ⊢
    split_ifs with h0
    · rfl
    · rw [if_neg h0] at hv
      cases hl : leadClass a0.val with
      | none => rfl
      | some t =>
        obtain ⟨sz, lo, hi⟩ := t
        simp only [hl] at hv ⊢
        exact decodeMulti_append _ _ _ _ _ _ (leadClass_size hl) hv

theorem Valid_nil : Valid [] = true := rfl

theorem Valid_cons_iff (a0 : Byte) (rest : GoString) :
    Valid (a0 :: rest) = true ↔
      DecodeRuneInString (a0 :: rest) ≠ (RuneError, 1)
        ∧ Valid ((a0 :: rest).drop (DecodeRuneInString (a0 :: rest)).2) = true := by
  have hd := decode_size a0 rest
  have hlen : ((a0 :: rest).take (DecodeRuneInString (a0 :: rest)).2).length
      = (DecodeRuneInString (a0 :: rest)).2 := by
    rw [List.length_take]; simp only [List.length_cons]; omega
  unfold Valid
  rw [runes_cons, List.all_cons, Bool.and_eq_true]
  have hinv : (!Seg.invalid ⟨(DecodeRuneInString (a0 :: rest)).1,
        (a0 :: rest).take (DecodeRuneInString (a0 :: rest)).2⟩) = true
      ↔ DecodeRuneInString (a0 :: rest) ≠ (RuneError, 1) := by
    simp only [Seg.invalid, hlen, Bool.not_eq_true', decide_eq_false_iff_not, ne_eq]
    constructor
    · intro h1 h2
      rw [h2] at h1
      exact h1 ⟨rfl, rfl⟩
    · intro h1 h2
      exact h1 (Prod.ext h2.1 h2.2)
  rw [hinv]

/-- The runes of a valid string followed by another string are the runes of
the one, then the runes of the other. -/
theorem runes_append_of_valid : ∀ (n : Nat) (a b : GoString), a.length ≤ n →
    Valid a = true → runes (a ++ b) = runes a ++ runes b := by
  intro n
  induction n with
  | zero =>
    intro a b h _
    have : a = [] := List.length_eq_zero.1 (by omega)
    subst this
    rfl
  | succ n ih =>
    intro a b h hv
    cases a with
    | nil => rfl
    | cons a0 rest =>
      have hd := decode_size a0 rest
      obtain ⟨hv1, hv2⟩ := (Valid_cons_iff a0 rest).1 hv
      have hdec := decode_append (a0 :: rest) b (by simp) hv1
      have hc : (a0 :: rest) ++ b = a0 :: (rest ++ b) := rfl
      rw [hc, runes_cons, ← hc, hdec, runes_cons a0 rest]
      have hle : (DecodeRuneInString (a0 :: rest)).2 ≤ (a0 :: rest).length := by
        simp only [List.length_cons]; omega
      rw [List.take_append_of_le_length hle, List.drop_append_of_le_length hle,
        ih _ b (by simp only [List.length_drop, List.length_cons] at h ⊢; omega) hv2]
      rfl

theorem Valid_append (a b : GoString) (ha : Valid a = true) (hb : Valid b = true) :
    Valid (a ++ b) = true := by
  unfold Valid at ha hb ⊢
  rw [runes_append_of_valid a.length a b (Nat.le_refl _) ha, List.all_append, ha, hb]
  rfl

/-- The bytes of a rune of a string that is no invalid byte are valid UTF-8. -/
theorem Valid_bytes_of_mem (s : GoString) (g : Seg) (hg : g ∈ runes s)
    (hv : g.invalid = false) : Valid g.bytes = true := by
  obtain ⟨l1, l2, hl⟩ := List.append_of_mem hg
  have h1 : runes (joinSegs (g :: l2)) = g :: l2 := runes_suffix l1 (g :: l2) s hl
  have h2 : runes (joinSegs [g]) = [g] := runes_prefix [g] l2 _ h1
  have h3 : joinSegs [g] = g.bytes := by simp [joinSegs]
  rw [h3] at h2
  simp [Valid, h2, hv]

theorem toValidAux_of_valid (r : GoString) :
    ∀ (l : List Seg) (inv : Bool), (∀ g ∈ l, g.invalid = false) →
      toValidAux r inv l = joinSegs l := by
  intro l
  induction l with
  | nil => intro inv _; rfl
  | cons g rest ih =>
    intro inv h
    have hg : g.invalid = false := h g (by simp)
    simp only [toValidAux, hg, Bool.false_eq_true, if_false, joinSegs_cons]
    rw [ih false (fun g1 h1 => h g1 (by simp [h1]))]

theorem Valid_toValidAux (r : GoString) (hr : Valid r = true) (s : GoString) :
    ∀ (l : List Seg) (inv : Bool), (∀ g ∈ l, g ∈ runes s) → Valid (toValidAux r inv l) = true := by
  intro l
  induction l with
  | nil => intro inv _; rfl
  | cons g rest ih =>
    intro inv h
    have hrest : ∀ g1 ∈ rest, g1 ∈ runes s := fun g1 h1 => h g1 (by simp [h1])
    simp only [toValidAux]
    by_cases hg : g.invalid = true
    · simp only [hg, if_true]
      apply Valid_append _ _ _ (ih true hrest)
      cases inv
      · simpa using hr
      · rfl
    · have hg2 : g.invalid = false := by simpa using hg
      simp only [hg2, Bool.false_eq_true, if_false]
      exact Valid_append _ _ (Valid_bytes_of_mem s g (h g (by simp)) hg2) (ih false hrest)

theorem ToValidUTF8_of_valid (s r : GoString) (hs : Valid s = true) : ToValidUTF8 s r = s := by
  unfold ToValidUTF8
  rw [toValidAux_of_valid r (runes s) false (by
    intro g hg
    have := List.all_eq_true.1 hs g hg
    simpa using this), joinSegs_runes_eq]

theorem Valid_ToValidUTF8 (s r : GoString) (hr : Valid r = true) :
    Valid (ToValidUTF8 s r) = true :=
  Valid_toValidAux r hr s (runes s) false (fun _ h => h)

/-! ## C17: `valid_utf8` -/

/-- C17: the transform of a `valid_utf8` rule returns a valid UTF-8 string
unchanged; when the configured replacement is valid UTF-8 (the default, the
empty replacement, is) the result is valid UTF-8 for every input, and the
transform applied to its own result returns that result.  With the default
replacement the bytes `a`, 0xFF, 0xFE, `b` give `ab`; with the replacement `?`
they give `a?b`. -/
theorem validUTF8Fn_spec (c : converter) (s : GoString) :
    (Valid s = true → validUTF8Fn c s = some s)
    ∧ (Valid c.Replacement = true →
        ∃ r, validUTF8Fn c s = some r ∧ Valid r = true ∧ validUTF8Fn c r = some r)
    ∧ Valid ([] : GoString) = true
    ∧ validUTF8Fn { } [97, 255, 254, 98] = some (str "ab")
    ∧ validUTF8Fn { Replacement := str "?" } [97, 255, 254, 98] = some (str "a?b")
    ∧ validUTF8Fn { Replacement := str "?" } (str "héllo") = some (str "héllo") := by
  refine ⟨?_, ?_, rfl, by decide, by decide, by decide⟩
  · intro hs
    simp only [validUTF8Fn, ToValidUTF8_of_valid s _ hs]
  · intro hr
    refine ⟨ToValidUTF8 s c.Replacement, rfl, Valid_ToValidUTF8 s _ hr, ?_⟩
    simp only [validUTF8Fn, ToValidUTF8_of_valid _ _ (Valid_ToValidUTF8 s _ hr)]

end StringsProcessor
